import Mathlib

/-!
Verification development for the XML utility module of ClairMeta
(clairmeta/utils/xml.py). The Python functions post_parse_node,
post_parse_attr, parse_xml, validate_xml and the xmlns post processing of
canonicalize_xml are embedded as executable Lean definitions, together with
a model of the xmltodict driver that invokes the postprocessor, and the
properties stated in the specification are proved or refuted against them.
-/

namespace Clairmeta

/-! ### Python string primitives, modelled over lists of characters -/

/-- Python str.startswith: pre is a prefix of s. -/
def pyStartsWith (s pre : String) : Bool :=
  pre.data.isPrefixOf s.data

/-- Python str.split(sep) for a one character separator, here a space:
split at every occurrence, keeping empty pieces. -/
def splitSp : List Char → List (List Char)
  | [] => [[]]
  | c :: rest =>
    if c = ' ' then [] :: splitSp rest
    else
      match splitSp rest with
      | [] => [[c]]
      | p :: ps => (c :: p) :: ps

theorem splitSp_ne_nil (l : List Char) : splitSp l ≠ [] := by
  induction l with
  | nil => simp [splitSp]
  | cons c rest ih =>
    simp only [splitSp]
    split
    · simp
    · split
      · simp
      · simp

theorem splitSp_no_space (l : List Char) (h : ' ' ∉ l) : splitSp l = [l] := by
  induction l with
  | nil => rfl
  | cons c rest ih =>
    simp only [List.mem_cons, not_or] at h
    simp only [splitSp]
    rw [if_neg (fun hc => h.1 hc.symm)]
    rw [ih h.2]

theorem splitSp_append_space (A B : List Char) (h : ' ' ∉ A) :
    splitSp (A ++ ' ' :: B) = A :: splitSp B := by
  induction A with
  | nil => simp [splitSp]
  | cons c rest ih =>
    simp only [List.mem_cons, not_or] at h
    simp only [List.cons_append, splitSp]
    rw [if_neg (fun hc => h.1 hc.symm)]
    have hr : rest.append (' ' :: B) = rest ++ ' ' :: B := rfl
    rw [hr, ih h.2]

theorem splitSp_eq_single {l A : List Char} (h : splitSp l = [A]) :
    l = A ∧ ' ' ∉ A := by
  induction l generalizing A with
  | nil =>
    simp only [splitSp, List.cons.injEq, and_true] at h
    subst h
    simp
  | cons c rest ih =>
    simp only [splitSp] at h
    split at h
    · rename_i hc
      simp only [List.cons.injEq] at h
      exact absurd h.2 (splitSp_ne_nil rest)
    · rename_i hc
      cases hrest : splitSp rest with
      | nil => exact absurd hrest (splitSp_ne_nil rest)
      | cons p ps =>
        rw [hrest] at h
        simp only [List.cons.injEq] at h
        obtain ⟨h1, h2⟩ := h
        have hps : ps = [] := h2
        have := ih (A := p) (by rw [hrest, hps])
        subst h1
        refine ⟨by rw [this.1], ?_⟩
        simp only [List.mem_cons, not_or]
        exact ⟨fun hs => hc hs.symm, this.2⟩

theorem splitSp_eq_pair {l A B : List Char} (h : splitSp l = [A, B]) :
    l = A ++ ' ' :: B ∧ ' ' ∉ A ∧ ' ' ∉ B := by
  induction l generalizing A with
  | nil =>
    simp only [splitSp, List.cons.injEq] at h
    exact absurd h.2 (by simp)
  | cons c rest ih =>
    simp only [splitSp] at h
    split at h
    · rename_i hc
      simp only [List.cons.injEq] at h
      obtain ⟨hA, h2⟩ := h
      have h3 : splitSp rest = [B] := h2
      obtain ⟨h4, h5⟩ := splitSp_eq_single h3
      subst hc hA h4
      simp_all
    · rename_i hc
      cases hrest : splitSp rest with
      | nil => exact absurd hrest (splitSp_ne_nil rest)
      | cons p ps =>
        rw [hrest] at h
        simp only [List.cons.injEq] at h
        obtain ⟨h1, h2⟩ := h
        have := ih (A := p) (by rw [hrest, h2])
        subst h1
        refine ⟨by rw [List.cons_append, this.1], ?_, this.2.2⟩
        simp only [List.mem_cons, not_or]
        exact ⟨fun hs => hc hs.symm, this.2.1⟩

/-- If neither A nor B contains a space, A followed by a space is a prefix of
B, space, C exactly when A equals B. -/
theorem space_prefix_iff : ∀ (A B C : List Char), ' ' ∉ A → ' ' ∉ B →
    ((A ++ [' ']) <+: (B ++ ' ' :: C) ↔ A = B)
  | [], [], C, _, _ => by simp
  | [], b :: B2, C, hA, hB => by
    simp only [List.mem_cons, not_or] at hB
    simp only [List.nil_append, List.cons_append, List.cons_prefix_cons]
    constructor
    · intro h
      exact absurd h.1 hB.1
    · intro h
      exact absurd h (by simp)
  | a :: A2, [], C, hA, hB => by
    simp only [List.mem_cons, not_or] at hA
    simp only [List.cons_append, List.nil_append, List.cons_prefix_cons]
    constructor
    · intro h
      exact absurd h.1.symm hA.1
    · intro h
      exact absurd h (by simp)
  | a :: A2, b :: B2, C, hA, hB => by
    simp only [List.mem_cons, not_or] at hA hB
    simp only [List.cons_append, List.cons_prefix_cons]
    rw [space_prefix_iff A2 B2 C hA.2 hB.2]
    constructor
    · rintro ⟨rfl, rfl⟩
      rfl
    · intro h
      cases h
      exact ⟨rfl, rfl⟩

/-- pyStartsWith in terms of list prefixes. -/
theorem pyStartsWith_iff (s pre : String) :
    pyStartsWith s pre = true ↔ pre.data <+: s.data := by
  simp [pyStartsWith]

theorem strMk_data (s : String) : String.mk s.data = s := rfl

theorem strData_append (s t : String) : (s ++ t).data = s.data ++ t.data := rfl

theorem strMk_inj {a b : List Char} (h : String.mk a = String.mk b) : a = b := by
  cases h
  rfl

/-! ### Occurrence scan and removal

Model of Python s.replace(pat, "") and re.sub(pat, "", s) for a fixed
non-empty literal pattern: scan left to right, on a match drop the pattern
and continue after it, otherwise keep one character and continue. Fuel is
the length of the scanned list, which suffices because each step consumes
at least one character. -/

/-- True when pat occurs as a contiguous sublist. -/
def hasOcc (pat : List Char) : List Char → Bool
  | [] => pat.isEmpty
  | c :: cs => pat.isPrefixOf (c :: cs) || hasOcc pat cs

/-- One left to right pass removing every non-overlapping occurrence of pat,
leftmost first, with explicit fuel. -/
def removeOccAux (pat : List Char) : Nat → List Char → List Char
  | 0, l => l
  | _ + 1, [] => []
  | fuel + 1, c :: cs =>
    if pat.isPrefixOf (c :: cs) then removeOccAux pat fuel (List.drop pat.length (c :: cs))
    else c :: removeOccAux pat fuel cs

/-- Remove every occurrence of pat, as Python replace with empty
replacement does. -/
def removeOcc (pat : List Char) (l : List Char) : List Char :=
  removeOccAux pat l.length l

theorem removeOccAux_no_occ (pat : List Char) :
    ∀ (fuel : Nat) (l : List Char), l.length ≤ fuel → hasOcc pat l = false →
      removeOccAux pat fuel l = l
  | 0, l, hf, _ => by
    interval_cases hl : l.length
    · exact (List.length_eq_zero.mp hl) ▸ rfl
  | fuel + 1, [], _, _ => rfl
  | fuel + 1, c :: cs, hf, hocc => by
    simp only [hasOcc, Bool.or_eq_false_iff] at hocc
    simp only [removeOccAux]
    rw [if_neg (by simp [hocc.1])]
    have := removeOccAux_no_occ pat fuel cs (by simpa using hf) hocc.2
    rw [this]

theorem removeOcc_no_occ (pat l : List Char) (h : hasOcc pat l = false) :
    removeOcc pat l = l :=
  removeOccAux_no_occ pat l.length l le_rfl h

/-! ### Decimal numerals -/

def digitVal (c : Char) : Nat := c.toNat - 48

/-- Left to right accumulation of decimal digit characters. -/
def natFromDigits (acc : Nat) (l : List Char) : Nat :=
  l.foldl (fun a c => a * 10 + digitVal c) acc

def allDigits (l : List Char) : Bool := l.all Char.isDigit

/-- Decimal rendering of a natural number, most significant digit first. -/
def renderNat (n : Nat) : List Char :=
  (Nat.digits 10 n).reverse.map Nat.digitChar

def renderNatStr (n : Nat) : List Char :=
  if n = 0 then ['0'] else renderNat n

def renderInt (i : Int) : List Char :=
  if i < 0 then '-' :: renderNatStr i.natAbs else renderNatStr i.natAbs

theorem digitChar_props : ∀ d, d < 10 →
    (Nat.digitChar d).isDigit = true ∧ digitVal (Nat.digitChar d) = d ∧
    Nat.digitChar d ≠ '.' ∧ Nat.digitChar d ≠ ' ' := by decide

theorem natFromDigits_map (L : List Nat) (hL : ∀ d ∈ L, d < 10) :
    ∀ acc, natFromDigits acc (L.map Nat.digitChar) =
      acc * 10 ^ L.length + Nat.ofDigits 10 L.reverse := by
  induction L with
  | nil => intro acc; simp [natFromDigits]
  | cons d L2 ih =>
    intro acc
    have hd : d < 10 := hL d (by simp)
    simp only [List.map_cons, natFromDigits, List.foldl_cons, List.reverse_cons]
    rw [(digitChar_props d hd).2.1]
    have hih := ih (fun x hx => hL x (by simp [hx])) (acc * 10 + d)
    simp only [natFromDigits] at hih
    rw [hih, Nat.ofDigits_append]
    simp only [List.length_cons, List.length_reverse, Nat.ofDigits_singleton]
    ring

theorem natFromDigits_renderNat (n : Nat) :
    natFromDigits 0 (renderNat n) = n := by
  unfold renderNat
  rw [natFromDigits_map _ (fun d hd => Nat.digits_lt_base (by norm_num) (List.mem_reverse.mp hd))]
  simp [Nat.ofDigits_digits]

theorem natFromDigits_renderNatStr (n : Nat) :
    natFromDigits 0 (renderNatStr n) = n := by
  unfold renderNatStr
  split
  · subst n; decide
  · exact natFromDigits_renderNat n

theorem renderNat_digits (n : Nat) : ∀ c ∈ renderNat n,
    c.isDigit = true ∧ c ≠ '.' ∧ c ≠ ' ' := by
  intro c hc
  unfold renderNat at hc
  obtain ⟨d, hd, rfl⟩ := List.mem_map.mp hc
  have : d < 10 := Nat.digits_lt_base (by norm_num) (List.mem_reverse.mp hd)
  obtain ⟨h1, _, h3, h4⟩ := digitChar_props d this
  exact ⟨h1, h3, h4⟩

theorem renderNatStr_digits (n : Nat) : ∀ c ∈ renderNatStr n,
    c.isDigit = true ∧ c ≠ '.' ∧ c ≠ ' ' := by
  intro c hc
  unfold renderNatStr at hc
  split at hc
  · simp only [List.mem_singleton] at hc
    subst hc
    refine ⟨by decide, by decide, by decide⟩
  · exact renderNat_digits n c hc

theorem renderNatStr_ne_nil (n : Nat) : renderNatStr n ≠ [] := by
  unfold renderNatStr
  split
  · simp
  · rename_i h
    unfold renderNat
    simp only [ne_eq, List.map_eq_nil_iff, List.reverse_eq_nil_iff]
    exact Nat.digits_ne_nil_iff_ne_zero.mpr h

theorem allDigits_renderNatStr (n : Nat) : allDigits (renderNatStr n) = true := by
  unfold allDigits
  rw [List.all_eq_true]
  intro c hc
  exact (renderNatStr_digits n c hc).1

/-! ### Splitting at the first dot -/

def splitDot : List Char → List Char × Option (List Char)
  | [] => ([], none)
  | c :: rest =>
    if c = '.' then ([], some rest)
    else
      let p := splitDot rest
      (c :: p.1, p.2)

theorem splitDot_no_dot (A : List Char) (h : '.' ∉ A) : splitDot A = (A, none) := by
  induction A with
  | nil => rfl
  | cons c rest ih =>
    simp only [List.mem_cons, not_or] at h
    simp only [splitDot]
    rw [if_neg (fun hc => h.1 hc.symm), ih h.2]

theorem splitDot_dot (A B : List Char) (h : '.' ∉ A) :
    splitDot (A ++ '.' :: B) = (A, some B) := by
  induction A with
  | nil => simp [splitDot]
  | cons c rest ih =>
    simp only [List.mem_cons, not_or] at h
    simp only [List.cons_append, splitDot]
    rw [if_neg (fun hc => h.1 hc.symm)]
    have hr : rest.append ('.' :: B) = rest ++ '.' :: B := rfl
    rw [hr, ih h.2]

/-! ### Numeric coercion -/

def intSign (neg : Bool) (n : Nat) : Int := if neg then -(n : Int) else (n : Int)

/-- Modelled from the spec: the numeric parse underlying try_convert_number
(clairmeta.utils.sys, a module not under src). Accepts an optional sign,
a non-empty run of decimal digits, and an optional dot followed by a
non-empty run of decimal digits, and yields the denoted rational; any
other text yields none. -/
def stripSign : List Char → Bool × List Char
  | [] => (false, [])
  | c :: rest =>
    if c = '-' then (true, rest)
    else if c = '+' then (false, rest)
    else (false, c :: rest)

def parseDecimal (s : String) : Option Rat :=
  let signBody := stripSign s.data
  let neg := signBody.1
  let body := signBody.2
  let p := splitDot body
  if p.1 = [] then none
  else if allDigits p.1 = false then none
  else
    match p.2 with
    | none => some (mkRat (intSign neg (natFromDigits 0 p.1)) 1)
    | some f =>
      if f = [] then none
      else if allDigits f = false then none
      else some (mkRat
        (intSign neg (natFromDigits 0 p.1 * 10 ^ f.length + natFromDigits 0 f))
        (10 ^ f.length))

theorem mkRat_mul_ten (i : Int) : mkRat (i * 10) 10 = (i : Rat) := by
  rw [Rat.mkRat_eq_divInt]
  rw [show ((10 : Nat) : Int) = (10 : Int) from rfl]
  rw [Rat.divInt_eq_div]
  push_cast
  rw [mul_div_assoc]
  norm_num

theorem stripSign_renderInt (n : Int) :
    stripSign (renderInt n ++ ['.', '0']) =
      (decide (n < 0), renderNatStr n.natAbs ++ ['.', '0']) := by
  unfold renderInt
  split
  · rename_i h
    simp only [List.cons_append, stripSign, if_pos rfl]
    simp [h]
  · rename_i h
    cases hr : renderNatStr n.natAbs with
    | nil => exact absurd hr (renderNatStr_ne_nil n.natAbs)
    | cons d ds =>
      have hd := (renderNatStr_digits n.natAbs d (by rw [hr]; simp)).1
      have hd1 : d ≠ '-' := fun he => by subst he; simp [Char.isDigit] at hd
      have hd2 : d ≠ '+' := fun he => by subst he; simp [Char.isDigit] at hd
      simp only [List.cons_append, stripSign, if_neg hd1, if_neg hd2]
      simp [h]

/-- The decimal parser inverts decimal rendering of an integer followed by
dot zero, and the value is the integer itself. -/
theorem parseDecimal_intDotZero (n : Int) :
    parseDecimal (String.mk (renderInt n ++ ['.', '0'])) = some ((n : Rat)) := by
  have hdata : (String.mk (renderInt n ++ ['.', '0'])).data = renderInt n ++ ['.', '0'] := rfl
  unfold parseDecimal
  rw [hdata, stripSign_renderInt n]
  have hnodot : '.' ∉ renderNatStr n.natAbs :=
    fun hc => ((renderNatStr_digits n.natAbs '.' hc).2.1) rfl
  have hsplit : splitDot (renderNatStr n.natAbs ++ '.' :: ['0']) =
      (renderNatStr n.natAbs, some ['0']) := splitDot_dot _ _ hnodot
  simp only [hsplit]
  rw [if_neg (by simp [renderNatStr_ne_nil n.natAbs])]
  rw [if_neg (by simp [allDigits_renderNatStr n.natAbs])]
  rw [if_neg (by simp)]
  rw [if_neg (by simp [allDigits])]
  have h0 : natFromDigits 0 ['0'] = 0 := by decide
  rw [h0, natFromDigits_renderNatStr]
  have hlen : (['0'] : List Char).length = 1 := rfl
  rw [hlen]
  have hsign : ∀ (b : Bool) (m : Nat), intSign b (m * 10 ^ 1 + 0) = intSign b m * 10 := by
    intro b m
    cases b
    · simp only [intSign, Bool.false_eq_true, if_false]
      omega
    · simp only [intSign, if_true]
      omega
  rw [hsign, show (10 : Nat) ^ 1 = 10 from rfl, mkRat_mul_ten]
  have hval : intSign (decide (n < 0)) n.natAbs = n := by
    rcases lt_or_le n 0 with h | h
    · simp only [intSign, decide_eq_true h, if_true]
      omega
    · simp only [intSign]
      rw [if_neg (by simp [not_lt.mpr h])]
      omega
  rw [hval]

/-! ### Python values

The values xmltodict and the postprocessors manipulate: strings, integers,
floating numbers (modelled as exact rationals), None, dicts (insertion
ordered association lists, as Python dicts are) and lists. -/

inductive Val where
  | str (s : String)
  | int (n : Int)
  | float (q : Rat)
  | pynone
  | dict (es : List (String × Val))
  | list (xs : List Val)

mutual

def Val.beq : Val → Val → Bool
  | .str a, .str b => a == b
  | .int a, .int b => a == b
  | .float a, .float b => a == b
  | .pynone, .pynone => true
  | .dict a, .dict b => Val.beqE a b
  | .list a, .list b => Val.beqL a b
  | _, _ => false

def Val.beqE : List (String × Val) → List (String × Val) → Bool
  | [], [] => true
  | (k, v) :: r, (k2, v2) :: r2 => k == k2 && Val.beq v v2 && Val.beqE r r2
  | _, _ => false

def Val.beqL : List Val → List Val → Bool
  | [], [] => true
  | v :: r, v2 :: r2 => Val.beq v v2 && Val.beqL r r2
  | _, _ => false

end

mutual

theorem Val.beq_refl : ∀ v : Val, Val.beq v v = true
  | .str a => by simp [Val.beq]
  | .int a => by simp [Val.beq]
  | .float a => by simp [Val.beq]
  | .pynone => by simp [Val.beq]
  | .dict es => by simp only [Val.beq]; exact Val.beqE_refl es
  | .list xs => by simp only [Val.beq]; exact Val.beqL_refl xs

theorem Val.beqE_refl : ∀ es : List (String × Val), Val.beqE es es = true
  | [] => by simp [Val.beqE]
  | (k, v) :: r => by
    simp only [Val.beqE, Bool.and_eq_true]
    exact ⟨⟨by simp, Val.beq_refl v⟩, Val.beqE_refl r⟩

theorem Val.beqL_refl : ∀ xs : List Val, Val.beqL xs xs = true
  | [] => by simp [Val.beqL]
  | v :: r => by
    simp only [Val.beqL, Bool.and_eq_true]
    exact ⟨Val.beq_refl v, Val.beqL_refl r⟩

end

mutual

theorem Val.eq_of_beq : ∀ a b : Val, Val.beq a b = true → a = b
  | .str a, .str b => by simp [Val.beq]
  | .int a, .int b => by simp [Val.beq]
  | .float a, .float b => by simp [Val.beq]
  | .pynone, .pynone => by simp
  | .dict a, .dict b => by
    simp only [Val.beq]
    intro h
    rw [Val.eqE_of_beq a b h]
  | .list a, .list b => by
    simp only [Val.beq]
    intro h
    rw [Val.eqL_of_beq a b h]
  | .str _, .int _ => by simp [Val.beq]
  | .str _, .float _ => by simp [Val.beq]
  | .str _, .pynone => by simp [Val.beq]
  | .str _, .dict _ => by simp [Val.beq]
  | .str _, .list _ => by simp [Val.beq]
  | .int _, .str _ => by simp [Val.beq]
  | .int _, .float _ => by simp [Val.beq]
  | .int _, .pynone => by simp [Val.beq]
  | .int _, .dict _ => by simp [Val.beq]
  | .int _, .list _ => by simp [Val.beq]
  | .float _, .str _ => by simp [Val.beq]
  | .float _, .int _ => by simp [Val.beq]
  | .float _, .pynone => by simp [Val.beq]
  | .float _, .dict _ => by simp [Val.beq]
  | .float _, .list _ => by simp [Val.beq]
  | .pynone, .str _ => by simp [Val.beq]
  | .pynone, .int _ => by simp [Val.beq]
  | .pynone, .float _ => by simp [Val.beq]
  | .pynone, .dict _ => by simp [Val.beq]
  | .pynone, .list _ => by simp [Val.beq]
  | .dict _, .str _ => by simp [Val.beq]
  | .dict _, .int _ => by simp [Val.beq]
  | .dict _, .float _ => by simp [Val.beq]
  | .dict _, .pynone => by simp [Val.beq]
  | .dict _, .list _ => by simp [Val.beq]
  | .list _, .str _ => by simp [Val.beq]
  | .list _, .int _ => by simp [Val.beq]
  | .list _, .float _ => by simp [Val.beq]
  | .list _, .pynone => by simp [Val.beq]
  | .list _, .dict _ => by simp [Val.beq]

theorem Val.eqE_of_beq : ∀ a b : List (String × Val), Val.beqE a b = true → a = b
  | [], [] => by simp
  | (k, v) :: r, (k2, v2) :: r2 => by
    simp only [Val.beqE, Bool.and_eq_true, beq_iff_eq]
    rintro ⟨⟨rfl, h2⟩, h3⟩
    rw [Val.eq_of_beq v v2 h2, Val.eqE_of_beq r r2 h3]
  | [], (_, _) :: _ => by simp [Val.beqE]
  | (_, _) :: _, [] => by simp [Val.beqE]

theorem Val.eqL_of_beq : ∀ a b : List Val, Val.beqL a b = true → a = b
  | [], [] => by simp
  | v :: r, v2 :: r2 => by
    simp only [Val.beqL, Bool.and_eq_true]
    rintro ⟨h2, h3⟩
    rw [Val.eq_of_beq v v2 h2, Val.eqL_of_beq r r2 h3]
  | [], _ :: _ => by simp [Val.beqL]
  | _ :: _, [] => by simp [Val.beqL]

end

instance : DecidableEq Val := fun a b =>
  if h : Val.beq a b = true then .isTrue (Val.eq_of_beq a b h)
  else .isFalse (fun he => h (he ▸ Val.beq_refl a))

/-! ### Python dict operations on insertion ordered association lists -/

/-- Python d[k] lookup: dicts never hold duplicate keys, lookup finds the
first entry. -/
def dlookup : List (String × Val) → String → Option Val
  | [], _ => none
  | (k, v) :: rest, key => if k = key then some v else dlookup rest key

/-- Python d[key] = v: overwrite in place when the key is present, append
otherwise. -/
def dinsert : List (String × Val) → String → Val → List (String × Val)
  | [], key, v => [(key, v)]
  | (k, w) :: rest, key, v =>
    if k = key then (k, v) :: rest else (k, w) :: dinsert rest key v

/-- A sequence of Python dict assignments, applied in order. -/
def dinsertAll : List (String × Val) → List (String × Val) → List (String × Val)
  | d, [] => d
  | d, (k, v) :: rest => dinsertAll (dinsert d k v) rest

/-- Python d.pop(key): drop the first entry with the given key. -/
def dremove : List (String × Val) → String → List (String × Val)
  | [], _ => []
  | (k, v) :: rest, key => if k = key then rest else (k, v) :: dremove rest key

theorem dlookup_dinsert_self (es : List (String × Val)) (k : String) (v : Val) :
    dlookup (dinsert es k v) k = some v := by
  induction es with
  | nil => simp [dinsert, dlookup]
  | cons kv rest ih =>
    obtain ⟨k2, w⟩ := kv
    simp only [dinsert]
    split
    · rename_i h
      simp [dlookup, h]
    · rename_i h
      simp [dlookup, h, ih]

theorem dlookup_dinsert_ne (es : List (String × Val)) (k k2 : String) (v : Val)
    (h : k ≠ k2) : dlookup (dinsert es k v) k2 = dlookup es k2 := by
  induction es with
  | nil => simp [dinsert, dlookup, h]
  | cons kv rest ih =>
    obtain ⟨k3, w⟩ := kv
    simp only [dinsert]
    split
    · rename_i h3
      subst h3
      simp [dlookup, h]
    · simp only [dlookup]
      split
      · rfl
      · exact ih

theorem dlookup_dremove_ne (es : List (String × Val)) (k k2 : String)
    (h : k ≠ k2) : dlookup (dremove es k) k2 = dlookup es k2 := by
  induction es with
  | nil => simp [dremove, dlookup]
  | cons kv rest ih =>
    obtain ⟨k3, w⟩ := kv
    simp only [dremove]
    split
    · rename_i h3
      simp only [dlookup]
      rw [if_neg (fun he => h (h3.symm.trans he))]
    · simp only [dlookup]
      split
      · rfl
      · exact ih

/-! ### Marker census: nodes carrying the namespace sentinel entry -/

mutual

/-- Number of mapping nodes in the value whose entries contain the pair
with key the sentinel and value the string ns. -/
def markerCount (ns : String) : Val → Nat
  | .dict es =>
    (if dlookup es "__xmlns__" = some (.str ns) then 1 else 0) + markerCountE ns es
  | .list xs => markerCountL ns xs
  | _ => 0

def markerCountE (ns : String) : List (String × Val) → Nat
  | [] => 0
  | (_, v) :: rest => markerCount ns v + markerCountE ns rest

def markerCountL (ns : String) : List Val → Nat
  | [] => 0
  | v :: rest => markerCount ns v + markerCountL ns rest

end

theorem markerCountE_append (ns : String) (a b : List (String × Val)) :
    markerCountE ns (a ++ b) = markerCountE ns a + markerCountE ns b := by
  induction a with
  | nil => simp [markerCountE]
  | cons kv rest ih =>
    obtain ⟨k, v⟩ := kv
    simp only [List.cons_append, markerCountE, List.append_eq, ih]
    ring

theorem markerCountL_append (ns : String) (a b : List Val) :
    markerCountL ns (a ++ b) = markerCountL ns a + markerCountL ns b := by
  induction a with
  | nil => simp [markerCountL]
  | cons v rest ih =>
    simp only [List.cons_append, markerCountL, List.append_eq, ih]
    ring

theorem markerCountE_dinsert_none (ns : String) (es : List (String × Val))
    (k : String) (v : Val) (h : dlookup es k = none) :
    markerCountE ns (dinsert es k v) = markerCountE ns es + markerCount ns v := by
  induction es with
  | nil => simp [dinsert, markerCountE]
  | cons kv rest ih =>
    obtain ⟨k2, w⟩ := kv
    simp only [dlookup] at h
    split at h
    · exact absurd h (by simp)
    · rename_i h2
      simp only [dinsert, if_neg h2, markerCountE, ih h]
      ring

theorem markerCountE_dinsert_some (ns : String) (es : List (String × Val))
    (k : String) (v old : Val) (h : dlookup es k = some old) :
    markerCountE ns (dinsert es k v) + markerCount ns old =
      markerCountE ns es + markerCount ns v := by
  induction es with
  | nil => simp [dlookup] at h
  | cons kv rest ih =>
    obtain ⟨k2, w⟩ := kv
    simp only [dlookup] at h
    split at h
    · rename_i h2
      cases h
      simp only [dinsert, if_pos h2, markerCountE]
      ring
    · rename_i h2
      simp only [dinsert, if_neg h2, markerCountE]
      have := ih h
      omega

theorem markerCountE_dremove (ns : String) (es : List (String × Val))
    (k : String) (old : Val) (h : dlookup es k = some old) :
    markerCountE ns (dremove es k) + markerCount ns old = markerCountE ns es := by
  induction es with
  | nil => simp [dlookup] at h
  | cons kv rest ih =>
    obtain ⟨k2, w⟩ := kv
    simp only [dlookup] at h
    split at h
    · rename_i h2
      cases h
      simp only [dremove, if_pos h2, markerCountE]
      ring
    · rename_i h2
      simp only [dremove, if_neg h2, markerCountE]
      have := ih h
      omega

/-! ### The node postprocessor of clairmeta.utils.xml -/

def isScalar : Val → Bool
  | .dict _ => false
  | .list _ => false
  | _ => true

def isStrVal : Val → Bool
  | .str _ => true
  | _ => false

/-- Modelled from the spec: try_convert_number from clairmeta.utils.sys,
a module not under src. Attempt to parse the string as a number; an
integral valued result becomes an integer, any other parsed decimal stays
a floating value, text that does not parse is returned unchanged, and non
string input passes through. The coercion is a total function and never
raises. -/
def try_convert_number : Val → Val
  | .str s =>
    match parseDecimal s with
    | none => .str s
    | some q => if q.den = 1 then .int q.num else .float q
  | v => v

def uuidPrefix : List Char := "urn:uuid:".data

/-- Lines 93 to 99 of utils/xml.py: when the value is a string starting
with the urn uuid prefix, apply Python replace of that prefix by the empty
string, which removes every occurrence; any non string value raises
AttributeError on startswith, which the source swallows. -/
def strip_uuid : Val → Val
  | .str s =>
    if uuidPrefix.isPrefixOf s.data then .str (String.mk (removeOcc uuidPrefix s.data))
    else .str s
  | v => v

def nsSep : String := " "

/-- post_parse_node from utils/xml.py: namespace prefix removal with the
namespace root sentinel, uuid prefix removal, numeric coercion and None
replacement. The path holds the raw keys of the ancestor chain including
the element being closed, as xmltodict maintains it when the postprocessor
runs. -/
def post_parse_node (path : List String) (key : String) (value : Val) :
    String × Val :=
  let kv :=
    if pyStartsWith key "@" then (key, value)
    else
      match splitSp key.data with
      | [ns, k] =>
        let nsStr := String.mk ns
        let found := List.countP (fun p => pyStartsWith p (nsStr ++ nsSep)) path
        (String.mk k,
          match value with
          | .dict es =>
            if found = 1 then .dict (dinsert es "__xmlns__" (.str nsStr)) else .dict es
          | v => v)
      | _ => (key, value)
  let value3 := try_convert_number (strip_uuid kv.2)
  (kv.1, match value3 with | .pynone => .str "" | v => v)

/-! ### Wellformedness of converted values -/

/-! Entry conditions preserved by the conversion and needed by the
attribute reshaping pass: attribute marked keys map to scalars, other keys
contain no at sign, the sentinel key maps to a string, and inner values
are wellformed; dict keys are pairwise distinct. -/
mutual

def wfVal : Val → Bool
  | .dict es => wfEntries es && decide ((es.map Prod.fst).Nodup)
  | .list xs => wfVList xs
  | _ => true

def wfEntries : List (String × Val) → Bool
  | [] => true
  | (k, v) :: rest =>
    (if pyStartsWith k "@" then isScalar v else !(k.data.contains '@')) &&
    (!(k == "__xmlns__") || isStrVal v) &&
    wfVal v && wfEntries rest

def wfVList : List Val → Bool
  | [] => true
  | v :: rest => wfVal v && wfVList rest

end

/-! No element mapping that still holds a text entry has another entry
under the given parent key: the condition under which the reshaping rename
of the text entry overwrites nothing. -/
mutual

def renameSafe (pk : String) : Val → Bool
  | .dict es =>
    ((dlookup es "#text").isNone || (dlookup es pk).isNone) && renameSafeE es
  | .list xs => renameSafeL pk xs
  | _ => true

def renameSafeE : List (String × Val) → Bool
  | [] => true
  | (k, v) :: rest => renameSafe k v && renameSafeE rest

def renameSafeL (pk : String) : List Val → Bool
  | [] => true
  | v :: rest => renameSafe pk v && renameSafeL pk rest

end

/-! ### The attribute reshaping pass of clairmeta.utils.xml -/

/-- Python "{}@{}".format(parent_key, k[1:]). -/
def attribKey (pk k : String) : String :=
  String.mk (pk.data ++ '@' :: k.data.drop 1)

/-- Lines 151 to 157 of utils/xml.py: after the entry loop, an empty output
collapses to the empty string, a lone text entry collapses to its value,
and a text entry beside other keys is renamed to the parent key, a Python
dict assignment that overwrites any entry already at that key. -/
def ppaFinish (pk : String) (out : List (String × Val)) : Val :=
  if out.length = 0 then .str ""
  else
    match dlookup out "#text" with
    | some w =>
      if out.length = 1 then w
      else .dict (dinsert (dremove out "#text") pk w)
    | none => .dict out

mutual

/-- post_parse_attr from utils/xml.py. The Python signature is
post_parse_attr(in_elem, parent_dict, parent_key); here own says whether
parent_dict is the own output dict of this call (the recursive call with
None made for list members), and the assignments the call performs on an
outer parent_dict are returned as the second component, in order, instead
of being performed by side effect. The first component is the returned
out_elem. -/
def post_parse_attr (own : Bool) (pk : String) : Val → Val × List (String × Val)
  | .dict es =>
    let oe := ppaOps own pk es
    (ppaFinish pk (dinsertAll [] oe.1), oe.2)
  | .list xs => (.list (ppaList pk xs), [])
  | v => (v, [])

/-- The entry loop of post_parse_attr: for each entry in order, an
attribute marked key contributes one parent_dict assignment under the
reshaped key, and any other key contributes the assignments of the
recursive call followed by the assignment of its result under the same
key. The first component lists the assignments on the own out_elem, the
second those on an outer parent_dict. -/
def ppaOps (own : Bool) (pk : String) : List (String × Val) → List (String × Val) × List (String × Val)
  | [] => ([], [])
  | (k, v) :: rest =>
    let r := ppaOps own pk rest
    if pyStartsWith k "@" then
      let ak := attribKey pk k
      if own then ((ak, v) :: r.1, r.2) else (r.1, (ak, v) :: r.2)
    else
      let c := post_parse_attr false k v
      (c.2 ++ (k, c.1) :: r.1, r.2)

def ppaList (pk : String) : List Val → List Val
  | [] => []
  | v :: rest => (post_parse_attr true pk v).1 :: ppaList pk rest

end

/-- A call post_parse_attr(v) at the default arguments, as parse_xml makes
it. The default parent_dict of the Python function is one shared dict
created when the function object is built and reused by every such call;
shared is its content before this call, and the second component is its
content afterwards. The default parent_key is the empty string. -/
def post_parse_attr_call (shared : List (String × Val)) (v : Val) :
    Val × List (String × Val) :=
  let re := post_parse_attr false "" v
  (re.1, dinsertAll shared re.2)

theorem post_parse_attr_doctest :
    post_parse_attr_call []
      (.dict [("mydict", .dict [("#text", .str "mytext"), ("@attrib", .str "myattrib")])]) =
    (.dict [("mydict@attrib", .str "myattrib"), ("mydict", .str "mytext")], []) := by
  decide

/-! ### The xmltodict driver

Model of xmltodict.parse as parse_xml configures it: process_namespaces
with the caller namespace table already applied to the raw keys, space as
namespace separator, dict constructor dict, xml_attribs true, and
post_parse_node installed as postprocessor. An element is represented by
its built raw key (alias plus separator plus local name, or a plain name),
its attributes in document order, its child elements in document order and
its stripped character data. -/

inductive XTree where
  | mk (rawKey : String) (attrs : List (String × String)) (children : List XTree)
      (text : Option String)

def XTree.rawKey : XTree → String
  | .mk k _ _ _ => k

def XTree.children : XTree → List XTree
  | .mk _ _ cs _ => cs

/-- push_data of xmltodict: apply the postprocessor, then insert into the
item dict, growing a list on repeated keys and honouring force_list. -/
def push_data (path : List String) (item : Option (List (String × Val)))
    (key : String) (data : Val) (fl : List String) : List (String × Val) :=
  let kv := post_parse_node path key data
  let d := item.getD []
  match dlookup d kv.1 with
  | some (.list xs) => dinsert d kv.1 (.list (xs ++ [kv.2]))
  | some old => dinsert d kv.1 (.list [old, kv.2])
  | none => if fl.contains kv.1 then dinsert d kv.1 (.list [kv.2]) else dinsert d kv.1 kv.2

/-- startElement of xmltodict: with attributes present the initial item is
a dict of the postprocessed attribute entries, otherwise None. -/
def init_attrs (path : List String) (attrs : List (String × String)) :
    Option (List (String × Val)) :=
  match attrs with
  | [] => none
  | _ =>
    some (attrs.foldl (fun d a =>
      let e := post_parse_node path (String.mk ('@' :: a.1.data)) (.str a.2)
      dinsert d e.1 e.2) [])

/-- The pushes endElement performs on a parent item for a run of already
built child contributions, in document order: each child is pushed under
its raw key with the path extended by that key. -/
def pushAll (path : List String) (fl : List String) :
    List (String × Val) → Option (List (String × Val)) → Option (List (String × Val))
  | [], item => item
  | (k, v) :: rest, item => pushAll path fl rest (some (push_data (path ++ [k]) item k v fl))

mutual

/-- The value an element contributes to its parent before the parent
applies the postprocessor to it: the attribute entries, then one entry per
child pushed in document order by endElement, then the text entry when the
item exists, or the bare text, or None. path includes the element itself,
as xmltodict pops the path only after pushing. -/
def elemValue (fl : List String) (path : List String) : XTree → Val
  | .mk _ attrs cs text =>
    let item1 := pushAll path fl (kidPairs fl path cs) (init_attrs path attrs)
    let dataOpt : Option String :=
      match text with
      | some s => if s = "" then none else some s
      | none => none
    match item1, dataOpt with
    | some d, some s => .dict (push_data path (some d) "#text" (.str s) fl)
    | some d, none => .dict d
    | none, some s => .str s
    | none, none => .pynone

/-- Raw key and raw contributed value of each child, in document order. -/
def kidPairs (fl : List String) (path : List String) : List XTree → List (String × Val)
  | [] => []
  | c :: rest =>
    (c.rawKey, elemValue fl (path ++ [c.rawKey]) c) :: kidPairs fl path rest

end

/-- The item after pushing every child of a node, starting from the
attribute item. -/
def pushKids (fl : List String) (path : List String) (cs : List XTree)
    (item : Option (List (String × Val))) : Option (List (String × Val)) :=
  pushAll path fl (kidPairs fl path cs) item

/-- The dict xmltodict.parse returns: the root element pushed into a fresh
top level dict. -/
def xmltodict_parse (fl : List String) (doc : XTree) : Val :=
  .dict (push_data [doc.rawKey] none doc.rawKey (elemValue fl [doc.rawKey] doc) fl)

/-- The mapping parse_xml builds with xml_attribs true: the xmltodict
result followed by the post_parse_attr pass at default arguments, with
shared the content of the shared default parent_dict before the call. -/
def parse_xml_dict (fl : List String) (shared : List (String × Val)) (doc : XTree) : Val :=
  (post_parse_attr_call shared (xmltodict_parse fl doc)).1

/-- The postprocessed key and value under which an element at ancestor raw
key path p is pushed into its parent. -/
def ppv (fl : List String) (p : List String) (t : XTree) : String × Val :=
  post_parse_node (p ++ [t.rawKey]) t.rawKey (elemValue fl (p ++ [t.rawKey]) t)

theorem xmltodict_parse_sample :
    xmltodict_parse [] (.mk "ns1 r" [] [.mk "ns1 c" [] [] none] none) =
    .dict [("r", .dict [("c", .str ""), ("__xmlns__", .str "ns1")])] := by
  decide

/-! ### Document shape predicates -/

/-- A sound element or namespace name part: non-empty, no separator space,
no at sign, and not one of the reserved keys. -/
def goodNameC (l : List Char) : Bool :=
  !l.isEmpty && !l.contains ' ' && !l.contains '@' &&
  !(l == "__xmlns__".data) && !(l == "#text".data)

def wfKey (k : String) : Bool :=
  match splitSp k.data with
  | [l] => goodNameC l
  | [ns, l] => goodNameC ns && goodNameC l
  | _ => false

mutual

def wfTree : XTree → Bool
  | .mk k attrs cs _ =>
    wfKey k && decide ((attrs.map Prod.fst).Nodup) && wfForest cs

def wfForest : List XTree → Bool
  | [] => true
  | c :: rest => wfTree c && wfForest rest

end

def isNSElem (a : String) (t : XTree) : Bool :=
  pyStartsWith t.rawKey (a ++ nsSep)

mutual

def treeHasNS (a : String) : XTree → Bool
  | .mk k _ cs _ => pyStartsWith k (a ++ nsSep) || forestHasNS a cs

def forestHasNS (a : String) : List XTree → Bool
  | [] => false
  | c :: rest => treeHasNS a c || forestHasNS a rest

end

/-! The namespace with alias a wraps exactly one root element in the tree,
and that root has at least one descendant element in the namespace. -/
mutual

def uniqueNSRoot (a : String) : XTree → Bool
  | .mk k _ cs _ =>
    if pyStartsWith k (a ++ nsSep) then forestHasNS a cs
    else uniqueNSForest a cs

def uniqueNSForest (a : String) : List XTree → Bool
  | [] => false
  | c :: rest =>
    if treeHasNS a c then uniqueNSRoot a c && !forestHasNS a rest
    else uniqueNSForest a rest

end

def localKey (k : String) : String :=
  match splitSp k.data with
  | [_, l] => String.mk l
  | _ => k

/-! No element with non-empty text has a child element whose normalized
key equals its own: the condition keeping the reshaping rename of the text
entry from overwriting a sibling entry. -/
mutual

def textSafeTree : XTree → Bool
  | .mk k _ cs tx =>
    (match tx with
     | some s =>
       if s = "" then true
       else !((cs.map (fun c => localKey c.rawKey)).contains (localKey k))
     | none => true) && textSafeForest cs

def textSafeForest : List XTree → Bool
  | [] => true
  | c :: rest => textSafeTree c && textSafeForest rest

end

def goodAlias (a : String) : Bool := !a.data.isEmpty && !a.data.contains ' '

/-! ### Small facts about dict operations and the marker census -/

theorem containsChar_iff (l : List Char) (c : Char) :
    l.contains c = true ↔ c ∈ l := by
  simp [List.contains, List.elem_iff]

theorem prefix_single_mem {x : Char} {m : List Char} (h : [x] <+: m) : x ∈ m :=
  h.subset (by simp)

theorem dlookup_eq_none_iff (es : List (String × Val)) (k : String) :
    dlookup es k = none ↔ k ∉ es.map Prod.fst := by
  induction es with
  | nil => simp [dlookup]
  | cons kv rest ih =>
    obtain ⟨k2, w⟩ := kv
    simp only [dlookup, List.map_cons, List.mem_cons]
    split
    · rename_i h
      subst h
      simp
    · rename_i h
      rw [ih]
      constructor
      · intro h2 h3
        rcases h3 with h3 | h3
        · exact h (h3.symm)
        · exact h2 h3
      · intro h2 h3
        exact h2 (Or.inr h3)

theorem markerCount_scalar (a : String) (v : Val) (h : isScalar v = true) :
    markerCount a v = 0 := by
  cases v <;> simp_all [isScalar, markerCount]

theorem markerCountE_scalar_values (a : String) (es : List (String × Val))
    (h : ∀ kv ∈ es, isScalar kv.2 = true) : markerCountE a es = 0 := by
  induction es with
  | nil => rfl
  | cons kv rest ih =>
    simp only [markerCountE]
    rw [markerCount_scalar a kv.2 (h kv (by simp)), ih (fun x hx => h x (by simp [hx]))]

theorem markerCount_le_of_dlookup (a : String) (es : List (String × Val))
    (k : String) (old : Val) (h : dlookup es k = some old) :
    markerCount a old ≤ markerCountE a es := by
  induction es with
  | nil => simp [dlookup] at h
  | cons kv rest ih =>
    obtain ⟨k2, w⟩ := kv
    simp only [dlookup] at h
    split at h
    · cases h
      simp only [markerCountE]
      omega
    · have := ih h
      simp only [markerCountE]
      omega

theorem dinsert_map_fst_of_none (es : List (String × Val)) (k : String) (v : Val)
    (h : dlookup es k = none) :
    (dinsert es k v).map Prod.fst = es.map Prod.fst ++ [k] := by
  induction es with
  | nil => simp [dinsert]
  | cons kv rest ih =>
    obtain ⟨k2, w⟩ := kv
    simp only [dlookup] at h
    split at h
    · exact absurd h (by simp)
    · rename_i h2
      simp only [dinsert, if_neg h2, List.map_cons, List.cons_append,
        List.cons.injEq, true_and]
      exact ih h

theorem dinsert_map_fst_of_some (es : List (String × Val)) (k : String) (v old : Val)
    (h : dlookup es k = some old) :
    (dinsert es k v).map Prod.fst = es.map Prod.fst := by
  induction es with
  | nil => simp [dlookup] at h
  | cons kv rest ih =>
    obtain ⟨k2, w⟩ := kv
    simp only [dlookup] at h
    split at h
    · rename_i h2
      simp [dinsert, if_pos h2]
    · rename_i h2
      simp only [dinsert, if_neg h2, List.map_cons, List.cons.injEq, true_and]
      exact ih h

theorem dinsert_keys_nodup (es : List (String × Val)) (k : String) (v : Val)
    (h : (es.map Prod.fst).Nodup) : ((dinsert es k v).map Prod.fst).Nodup := by
  rcases hm : dlookup es k with _ | old
  · rw [dinsert_map_fst_of_none es k v hm]
    rw [dlookup_eq_none_iff] at hm
    simp [List.nodup_append, h, hm]
  · rw [dinsert_map_fst_of_some es k v old hm]
    exact h

theorem dinsertAll_keys_nodup (ops : List (String × Val)) :
    ∀ d : List (String × Val), (d.map Prod.fst).Nodup →
      ((dinsertAll d ops).map Prod.fst).Nodup := by
  induction ops with
  | nil => intro d h; exact h
  | cons kv rest ih =>
    intro d h
    obtain ⟨k, v⟩ := kv
    exact ih (dinsert d k v) (dinsert_keys_nodup d k v h)

theorem dinsertAll_lookup_not_mem (ops : List (String × Val)) :
    ∀ (d : List (String × Val)) (q : String), q ∉ ops.map Prod.fst →
      dlookup (dinsertAll d ops) q = dlookup d q := by
  induction ops with
  | nil => intro d q _; rfl
  | cons kv rest ih =>
    intro d q hq
    obtain ⟨k, v⟩ := kv
    simp only [List.map_cons, List.mem_cons, not_or] at hq
    simp only [dinsertAll]
    rw [ih (dinsert d k v) q hq.2]
    exact dlookup_dinsert_ne d k q v (fun he => hq.1 (he ▸ rfl))

/-! ### Case analysis of post_parse_node -/

/-- The value pipeline of post_parse_node after the namespace step: uuid
stripping, numeric coercion, None to empty string. -/
def ppScalarPipe (v : Val) : Val :=
  match try_convert_number (strip_uuid v) with
  | .pynone => .str ""
  | w => w

theorem ppScalarPipe_int (n : Int) : ppScalarPipe (.int n) = .int n := rfl

theorem ppScalarPipe_float (q : Rat) : ppScalarPipe (.float q) = .float q := rfl

theorem ppScalarPipe_pynone : ppScalarPipe .pynone = .str "" := rfl

theorem ppScalarPipe_dict (es : List (String × Val)) :
    ppScalarPipe (.dict es) = .dict es := rfl

theorem ppScalarPipe_list (xs : List Val) :
    ppScalarPipe (.list xs) = .list xs := rfl

theorem tcn_str_match_scalar (t : String) :
    isScalar (match try_convert_number (.str t) with
      | .pynone => .str ""
      | w => w) = true := by
  simp only [try_convert_number]
  rcases hp : parseDecimal t with _ | q
  · simp [isScalar]
  · by_cases hd : q.den = 1
    · simp [hd, isScalar]
    · simp [hd, isScalar]

theorem strip_uuid_str (s : String) : ∃ s2, strip_uuid (.str s) = .str s2 := by
  by_cases hc : uuidPrefix.isPrefixOf s.data = true
  · exact ⟨String.mk (removeOcc uuidPrefix s.data), by simp [strip_uuid, hc]⟩
  · exact ⟨s, by simp [strip_uuid, hc]⟩

theorem ppScalarPipe_str_scalar (s : String) :
    isScalar (ppScalarPipe (.str s)) = true := by
  obtain ⟨s2, h2⟩ := strip_uuid_str s
  unfold ppScalarPipe
  rw [h2]
  exact tcn_str_match_scalar s2

theorem ppScalarPipe_scalar (v : Val) (h : isScalar v = true) :
    isScalar (ppScalarPipe v) = true := by
  cases v with
  | str s => exact ppScalarPipe_str_scalar s
  | int n => rfl
  | float q => rfl
  | pynone => rfl
  | dict es => simp [isScalar] at h
  | list xs => simp [isScalar] at h

theorem pp_attr_case (path : List String) (key : String) (v : Val)
    (h : pyStartsWith key "@" = true) :
    post_parse_node path key v = (key, ppScalarPipe v) := by
  simp only [post_parse_node, h, if_true]
  rfl

theorem pp_single_case (path : List String) (key : String) (v : Val) (l : List Char)
    (hat : pyStartsWith key "@" = false) (hsplit : splitSp key.data = [l]) :
    post_parse_node path key v = (key, ppScalarPipe v) := by
  simp only [post_parse_node, hat, Bool.false_eq_true, if_false, hsplit]
  rfl

theorem pp_pair_dict_case (path : List String) (key : String)
    (ns l : List Char) (es : List (String × Val))
    (hat : pyStartsWith key "@" = false) (hsplit : splitSp key.data = [ns, l]) :
    post_parse_node path key (.dict es) =
      (String.mk l,
        if List.countP (fun p => pyStartsWith p (String.mk ns ++ nsSep)) path = 1
        then .dict (dinsert es "__xmlns__" (.str (String.mk ns)))
        else .dict es) := by
  simp only [post_parse_node, hat, Bool.false_eq_true, if_false, hsplit]
  by_cases hf :
      List.countP (fun p => pyStartsWith p (String.mk ns ++ nsSep)) path = 1
  · simp only [hf, if_true]
    rfl
  · simp only [hf, if_false]
    rfl

theorem pp_pair_other_case (path : List String) (key : String)
    (ns l : List Char) (v : Val)
    (hat : pyStartsWith key "@" = false) (hsplit : splitSp key.data = [ns, l])
    (hv : ∀ es, v ≠ .dict es) :
    post_parse_node path key v = (String.mk l, ppScalarPipe v) := by
  cases v with
  | dict es => exact absurd rfl (hv es)
  | str s => simp only [post_parse_node, hat, Bool.false_eq_true, if_false, hsplit]; rfl
  | int n => simp only [post_parse_node, hat, Bool.false_eq_true, if_false, hsplit]; rfl
  | float q => simp only [post_parse_node, hat, Bool.false_eq_true, if_false, hsplit]; rfl
  | pynone => simp only [post_parse_node, hat, Bool.false_eq_true, if_false, hsplit]; rfl
  | list xs => simp only [post_parse_node, hat, Bool.false_eq_true, if_false, hsplit]; rfl

/-! ### Key shape facts -/

theorem goodNameC_spec (l : List Char) (h : goodNameC l = true) :
    l ≠ [] ∧ ' ' ∉ l ∧ '@' ∉ l ∧ l ≠ "__xmlns__".data ∧ l ≠ "#text".data := by
  simp only [goodNameC, Bool.and_eq_true, Bool.not_eq_eq_eq_not, Bool.not_true] at h
  obtain ⟨⟨⟨⟨h1, h2⟩, h3⟩, h4⟩, h5⟩ := h
  refine ⟨?_, ?_, ?_, ?_, ?_⟩
  · intro he
    subst he
    simp [List.isEmpty] at h1
  · intro hm
    rw [← containsChar_iff] at hm
    rw [hm] at h2
    cases h2
  · intro hm
    rw [← containsChar_iff] at hm
    rw [hm] at h3
    cases h3
  · intro he
    rw [show (l == "__xmlns__".data) = true from by simp [he]] at h4
    cases h4
  · intro he
    rw [show (l == "#text".data) = true from by simp [he]] at h5
    cases h5

theorem wfKey_cases (k : String) (h : wfKey k = true) :
    (∃ l, splitSp k.data = [l] ∧ goodNameC l = true) ∨
    (∃ ns l, splitSp k.data = [ns, l] ∧ goodNameC ns = true ∧ goodNameC l = true) := by
  unfold wfKey at h
  rcases hs : splitSp k.data with _ | ⟨x, xs⟩
  · rw [hs] at h
    cases h
  · rcases xs with _ | ⟨y, ys⟩
    · rw [hs] at h
      exact Or.inl ⟨x, rfl, h⟩
    · rcases ys with _ | ⟨z, zs⟩
      · rw [hs] at h
        simp only [Bool.and_eq_true] at h
        exact Or.inr ⟨x, y, rfl, h.1, h.2⟩
      · rw [hs] at h
        cases h

theorem wfKey_not_attr (k : String) (h : wfKey k = true) :
    pyStartsWith k "@" = false := by
  rcases wfKey_cases k h with ⟨l, hs, hg⟩ | ⟨ns, l, hs, hgns, hgl⟩
  · obtain ⟨hk, _⟩ := splitSp_eq_single hs
    obtain ⟨_, _, hat, _, _⟩ := goodNameC_spec l hg
    rw [Bool.eq_false_iff]
    intro hp
    rw [pyStartsWith_iff] at hp
    rw [hk] at hp
    exact hat (prefix_single_mem hp)
  · obtain ⟨hk, hnsp, hlp⟩ := splitSp_eq_pair hs
    obtain ⟨hne, _, hat, _, _⟩ := goodNameC_spec ns hgns
    obtain ⟨_, _, hat2, _, _⟩ := goodNameC_spec l hgl
    rw [Bool.eq_false_iff]
    intro hp
    rw [pyStartsWith_iff, hk] at hp
    have : '@' ∈ ns ++ ' ' :: l := prefix_single_mem hp
    simp only [List.mem_append, List.mem_cons] at this
    rcases this with h1 | h1 | h1
    · exact hat h1
    · cases h1
    · exact hat2 h1

theorem localKey_pair (k : String) (ns l : List Char)
    (hsplit : splitSp k.data = [ns, l]) : localKey k = String.mk l := by
  unfold localKey
  rw [hsplit]

theorem localKey_single (k : String) (l : List Char)
    (hsplit : splitSp k.data = [l]) : localKey k = k := by
  unfold localKey
  rw [hsplit]

theorem localKey_good (k : String) (h : wfKey k = true) :
    goodNameC (localKey k).data = true := by
  rcases wfKey_cases k h with ⟨l, hs, hg⟩ | ⟨ns, l, hs, hgns, hgl⟩
  · rw [localKey_single k l hs]
    obtain ⟨hk, _⟩ := splitSp_eq_single hs
    rw [hk]
    exact hg
  · rw [localKey_pair k ns l hs]
    exact hgl

theorem pp_key_eq_localKey (path : List String) (k : String) (v : Val)
    (h : wfKey k = true) : (post_parse_node path k v).1 = localKey k := by
  have hat := wfKey_not_attr k h
  rcases wfKey_cases k h with ⟨l, hs, _⟩ | ⟨ns, l, hs, _, _⟩
  · rw [pp_single_case path k v l hat hs, localKey_single k l hs]
  · rw [localKey_pair k ns l hs]
    cases v with
    | dict es => rw [pp_pair_dict_case path k ns l es hat hs]
    | str s => rw [pp_pair_other_case path k ns l _ hat hs (by intro _ he; cases he)]
    | int n => rw [pp_pair_other_case path k ns l _ hat hs (by intro _ he; cases he)]
    | float q => rw [pp_pair_other_case path k ns l _ hat hs (by intro _ he; cases he)]
    | pynone => rw [pp_pair_other_case path k ns l _ hat hs (by intro _ he; cases he)]
    | list xs => rw [pp_pair_other_case path k ns l _ hat hs (by intro _ he; cases he)]

theorem goodName_str_facts (q : String) (h : goodNameC q.data = true) :
    q ≠ "__xmlns__" ∧ q ≠ "#text" ∧ pyStartsWith q "@" = false ∧
    q.data.contains '@' = false := by
  obtain ⟨hne, hsp, hat, hx, ht⟩ := goodNameC_spec q.data h
  refine ⟨?_, ?_, ?_, ?_⟩
  · intro he
    exact hx (by rw [he])
  · intro he
    exact ht (by rw [he])
  · rw [Bool.eq_false_iff]
    intro hp
    rw [pyStartsWith_iff] at hp
    exact hat (prefix_single_mem hp)
  · rw [Bool.eq_false_iff]
    intro hc
    exact hat ((containsChar_iff _ _).mp hc)

theorem isNS_pair_iff (a k : String) (ns l : List Char)
    (ha : goodAlias a = true) (hsplit : splitSp k.data = [ns, l]) :
    (pyStartsWith k (a ++ nsSep) = true ↔ a.data = ns) := by
  obtain ⟨hk, hnsp, hlp⟩ := splitSp_eq_pair hsplit
  have hsp : ' ' ∉ a.data := by
    simp only [goodAlias, Bool.and_eq_true, Bool.not_eq_eq_eq_not, Bool.not_true] at ha
    intro hm
    rw [← containsChar_iff] at hm
    rw [hm] at ha
    exact absurd ha.2 (by simp)
  rw [pyStartsWith_iff, hk]
  have hdata : (a ++ nsSep).data = a.data ++ [' '] := by
    rw [strData_append]
    rfl
  rw [hdata]
  exact space_prefix_iff a.data ns l hsp hnsp

theorem notNS_single (a k : String) (l : List Char)
    (hsplit : splitSp k.data = [l]) :
    pyStartsWith k (a ++ nsSep) = false := by
  obtain ⟨hk, hl⟩ := splitSp_eq_single hsplit
  rw [Bool.eq_false_iff]
  intro hp
  rw [pyStartsWith_iff, hk] at hp
  have : ' ' ∈ l := hp.subset (by
    rw [strData_append]
    exact List.mem_append_right _ (by decide))
  exact hl this

/-! ### Counting namespace prefixed path entries -/

def nsPrefCount (a : String) (p : List String) : Nat :=
  List.countP (fun q => pyStartsWith q (a ++ nsSep)) p

theorem nsPrefCount_append (a : String) (p q : List String) :
    nsPrefCount a (p ++ q) = nsPrefCount a p + nsPrefCount a q := by
  simp [nsPrefCount]

/-! ### Counting and lookup through push_data -/

theorem push_data_count (a : String) (path : List String)
    (item : Option (List (String × Val))) (key : String) (data : Val)
    (fl : List String) :
    markerCountE a (push_data path item key data fl) =
      markerCountE a (item.getD []) +
        markerCount a (post_parse_node path key data).2 := by
  unfold push_data
  rcases hl : dlookup (item.getD []) (post_parse_node path key data).1 with _ | old
  · simp only [hl]
    by_cases hf : fl.contains (post_parse_node path key data).1
    · simp only [hf, if_true]
      rw [markerCountE_dinsert_none a _ _ _ hl]
      simp [markerCount, markerCountL]
    · simp only [hf, Bool.false_eq_true, if_false]
      rw [markerCountE_dinsert_none a _ _ _ hl]
  · cases old with
    | list xs =>
      simp only [hl]
      have h2 := markerCountE_dinsert_some a (item.getD [])
        (post_parse_node path key data).1
        (.list (xs ++ [(post_parse_node path key data).2])) (.list xs) hl
      simp only [markerCount, markerCountL_append, markerCountL] at h2
      omega
    | str t =>
      simp only [hl]
      have h2 := markerCountE_dinsert_some a (item.getD [])
        (post_parse_node path key data).1
        (.list [.str t, (post_parse_node path key data).2]) (.str t) hl
      simp only [markerCount, markerCountL] at h2
      omega
    | int n =>
      simp only [hl]
      have h2 := markerCountE_dinsert_some a (item.getD [])
        (post_parse_node path key data).1
        (.list [.int n, (post_parse_node path key data).2]) (.int n) hl
      simp only [markerCount, markerCountL] at h2
      omega
    | float q =>
      simp only [hl]
      have h2 := markerCountE_dinsert_some a (item.getD [])
        (post_parse_node path key data).1
        (.list [.float q, (post_parse_node path key data).2]) (.float q) hl
      simp only [markerCount, markerCountL] at h2
      omega
    | pynone =>
      simp only [hl]
      have h2 := markerCountE_dinsert_some a (item.getD [])
        (post_parse_node path key data).1
        (.list [.pynone, (post_parse_node path key data).2]) .pynone hl
      simp only [markerCount, markerCountL] at h2
      omega
    | dict es2 =>
      simp only [hl]
      have h2 := markerCountE_dinsert_some a (item.getD [])
        (post_parse_node path key data).1
        (.list [.dict es2, (post_parse_node path key data).2]) (.dict es2) hl
      simp only [markerCount, markerCountL] at h2
      omega

theorem push_data_lookup (path : List String)
    (item : Option (List (String × Val))) (key : String) (data : Val)
    (fl : List String) (q : String)
    (hq : (post_parse_node path key data).1 ≠ q) :
    dlookup (push_data path item key data fl) q = dlookup (item.getD []) q := by
  unfold push_data
  rcases hl : dlookup (item.getD []) (post_parse_node path key data).1 with _ | old
  · simp only [hl]
    by_cases hf : fl.contains (post_parse_node path key data).1
    · simp only [hf, if_true]
      exact dlookup_dinsert_ne _ _ _ _ hq
    · simp only [hf, Bool.false_eq_true, if_false]
      exact dlookup_dinsert_ne _ _ _ _ hq
  · cases old <;> simp only [hl] <;> exact dlookup_dinsert_ne _ _ _ _ hq

/-! ### Preservation lemmas for wellformedness -/

theorem renameSafe_scalar (pk : String) (v : Val) (h : isScalar v = true) :
    renameSafe pk v = true := by
  cases v <;> simp_all [isScalar, renameSafe]

theorem wfVal_scalar (v : Val) (h : isScalar v = true) : wfVal v = true := by
  cases v <;> simp_all [isScalar, wfVal]

theorem wfEntries_cons_iff (k : String) (v : Val) (rest : List (String × Val)) :
    wfEntries ((k, v) :: rest) = true ↔
      ((if pyStartsWith k "@" = true then isScalar v else !(k.data.contains '@')) = true ∧
       (!(k == "__xmlns__") || isStrVal v) = true ∧
       wfVal v = true ∧ wfEntries rest = true) := by
  simp only [wfEntries, Bool.and_eq_true, and_assoc]

theorem renameSafeE_cons_iff (k : String) (v : Val) (rest : List (String × Val)) :
    renameSafeE ((k, v) :: rest) = true ↔
      (renameSafe k v = true ∧ renameSafeE rest = true) := by
  simp only [renameSafeE, Bool.and_eq_true]

theorem wfEntries_dinsert (es : List (String × Val)) (k : String) (v : Val)
    (hwf : wfEntries es = true)
    (hc1 : (if pyStartsWith k "@" = true then isScalar v else !(k.data.contains '@')) = true)
    (hc2 : (!(k == "__xmlns__") || isStrVal v) = true)
    (hv : wfVal v = true) : wfEntries (dinsert es k v) = true := by
  induction es with
  | nil =>
    simp only [dinsert]
    rw [wfEntries_cons_iff]
    exact ⟨hc1, hc2, hv, rfl⟩
  | cons kv rest ih =>
    obtain ⟨k2, w⟩ := kv
    rw [wfEntries_cons_iff] at hwf
    obtain ⟨ha, hb, hcv, hrest⟩ := hwf
    simp only [dinsert]
    split
    · rename_i he
      subst he
      rw [wfEntries_cons_iff]
      exact ⟨hc1, hc2, hv, hrest⟩
    · rw [wfEntries_cons_iff]
      exact ⟨ha, hb, hcv, ih hrest⟩

theorem renameSafeE_dinsert (es : List (String × Val)) (k : String) (v : Val)
    (h : renameSafeE es = true) (hv : renameSafe k v = true) :
    renameSafeE (dinsert es k v) = true := by
  induction es with
  | nil => simp [dinsert, renameSafeE, hv]
  | cons kv rest ih =>
    obtain ⟨k2, w⟩ := kv
    rw [renameSafeE_cons_iff] at h
    simp only [dinsert]
    split
    · rename_i he
      subst he
      rw [renameSafeE_cons_iff]
      exact ⟨hv, h.2⟩
    · rw [renameSafeE_cons_iff]
      exact ⟨h.1, ih h.2⟩

theorem wfEntries_dlookup (es : List (String × Val)) (k : String) (v : Val)
    (hwf : wfEntries es = true) (h : dlookup es k = some v) :
    wfVal v = true ∧ (pyStartsWith k "@" = true → isScalar v = true) ∧
    (k = "__xmlns__" → isStrVal v = true) := by
  induction es with
  | nil => simp [dlookup] at h
  | cons kv rest ih =>
    obtain ⟨k2, w⟩ := kv
    rw [wfEntries_cons_iff] at hwf
    obtain ⟨ha, hb, hcv, hrest⟩ := hwf
    simp only [dlookup] at h
    split at h
    · rename_i he
      cases h
      subst he
      refine ⟨hcv, ?_, ?_⟩
      · intro hat
        rw [if_pos hat] at ha
        exact ha
      · intro hk
        subst hk
        simpa using hb
    · exact ih hrest h

theorem renameSafeE_dlookup (es : List (String × Val)) (k : String) (v : Val)
    (h1 : renameSafeE es = true) (h : dlookup es k = some v) :
    renameSafe k v = true := by
  induction es with
  | nil => simp [dlookup] at h
  | cons kv rest ih =>
    obtain ⟨k2, w⟩ := kv
    simp only [renameSafeE, Bool.and_eq_true] at h1
    simp only [dlookup] at h
    split at h
    · rename_i he
      cases h
      subst he
      exact h1.1
    · exact ih h1.2 h

theorem dlookup_mem (es : List (String × Val)) (k : String) (v : Val)
    (h : dlookup es k = some v) : (k, v) ∈ es := by
  induction es with
  | nil => simp [dlookup] at h
  | cons kv rest ih =>
    obtain ⟨k2, w⟩ := kv
    simp only [dlookup] at h
    split at h
    · rename_i he
      cases h
      subst he
      simp
    · simp [ih h]

theorem mem_dinsert (es : List (String × Val)) (k : String) (v : Val) (kv : String × Val)
    (h : kv ∈ dinsert es k v) : kv ∈ es ∨ kv = (k, v) := by
  induction es with
  | nil =>
    simp only [dinsert, List.mem_singleton] at h
    exact Or.inr h
  | cons kv2 rest ih =>
    obtain ⟨k2, w⟩ := kv2
    simp only [dinsert] at h
    split at h
    · simp only [List.mem_cons] at h
      rcases h with h | h
      · exact Or.inr (by rename_i he; rw [h, he])
      · exact Or.inl (by simp [h])
    · simp only [List.mem_cons] at h
      rcases h with h | h
      · exact Or.inl (by simp [h])
      · rcases ih h with h2 | h2
        · exact Or.inl (by simp [h2])
        · exact Or.inr h2

theorem atKey_starts (nd : List Char) :
    pyStartsWith (String.mk ('@' :: nd)) "@" = true := by
  simp [pyStartsWith, List.isPrefixOf]

theorem init_attrs_fold_facts (a : String) (path : List String) :
    ∀ (l : List (String × String)) (d : List (String × Val)),
      markerCountE a d = 0 →
      (∀ q, pyStartsWith q "@" = false → dlookup d q = none) →
      wfEntries d = true → ((d.map Prod.fst).Nodup) → renameSafeE d = true →
      (∀ kv ∈ d, isScalar kv.2 = true) →
      (markerCountE a (l.foldl (fun d2 a2 =>
          let e := post_parse_node path (String.mk ('@' :: a2.1.data)) (.str a2.2)
          dinsert d2 e.1 e.2) d) = 0 ∧
       (∀ q, pyStartsWith q "@" = false → dlookup (l.foldl (fun d2 a2 =>
          let e := post_parse_node path (String.mk ('@' :: a2.1.data)) (.str a2.2)
          dinsert d2 e.1 e.2) d) q = none) ∧
       wfEntries (l.foldl (fun d2 a2 =>
          let e := post_parse_node path (String.mk ('@' :: a2.1.data)) (.str a2.2)
          dinsert d2 e.1 e.2) d) = true ∧
       (((l.foldl (fun d2 a2 =>
          let e := post_parse_node path (String.mk ('@' :: a2.1.data)) (.str a2.2)
          dinsert d2 e.1 e.2) d).map Prod.fst).Nodup) ∧
       renameSafeE (l.foldl (fun d2 a2 =>
          let e := post_parse_node path (String.mk ('@' :: a2.1.data)) (.str a2.2)
          dinsert d2 e.1 e.2) d) = true ∧
       (∀ kv ∈ (l.foldl (fun d2 a2 =>
          let e := post_parse_node path (String.mk ('@' :: a2.1.data)) (.str a2.2)
          dinsert d2 e.1 e.2) d), isScalar kv.2 = true)) := by
  intro l
  induction l with
  | nil =>
    intro d h1 h2 h3 h4 h5 h6
    exact ⟨h1, h2, h3, h4, h5, h6⟩
  | cons na rest ih =>
    intro d h1 h2 h3 h4 h5 h6
    obtain ⟨nm, av⟩ := na
    simp only [List.foldl_cons]
    have hstart := atKey_starts nm.data
    have hpp := pp_attr_case path (String.mk ('@' :: nm.data)) (.str av) hstart
    set e := post_parse_node path (String.mk ('@' :: nm.data)) (.str av) with he
    have he1 : e.1 = String.mk ('@' :: nm.data) := by rw [hpp]
    have he2s : isScalar e.2 = true := by
      rw [hpp]
      exact ppScalarPipe_str_scalar av
    have hne : e.1 ≠ "__xmlns__" := by
      intro hq
      have := hstart
      rw [← he1, hq] at this
      exact absurd this (by decide)
    apply ih
    · rcases hl : dlookup d e.1 with _ | old
      · rw [markerCountE_dinsert_none a d e.1 e.2 hl, h1,
          markerCount_scalar a e.2 he2s]
    -- some case
      · have hc := markerCountE_dinsert_some a d e.1 e.2 old hl
        have hle := markerCount_le_of_dlookup a d e.1 old hl
        have := markerCount_scalar a e.2 he2s
        omega
    · intro q hq
      rw [dlookup_dinsert_ne]
      · exact h2 q hq
      · intro heq
        have hqe : q = String.mk ('@' :: nm.data) := heq.symm.trans he1
        rw [hqe, hstart] at hq
        cases hq
    · apply wfEntries_dinsert d e.1 e.2 h3
      · have hs1 : pyStartsWith e.1 "@" = true := by
          rw [he1]
          exact hstart
        rw [if_pos hs1]
        exact he2s
      · simp [hne]
      · exact wfVal_scalar e.2 he2s
    · exact dinsert_keys_nodup d e.1 e.2 h4
    · exact renameSafeE_dinsert d e.1 e.2 h5 (renameSafe_scalar e.1 e.2 he2s)
    · intro kv hkv
      rcases mem_dinsert d e.1 e.2 kv hkv with hm | hm
      · exact h6 kv hm
      · rw [hm]
        exact he2s

theorem init_attrs_facts (a : String) (path : List String)
    (attrs : List (String × String)) :
    markerCountE a ((init_attrs path attrs).getD []) = 0 ∧
    (∀ q, pyStartsWith q "@" = false →
      dlookup ((init_attrs path attrs).getD []) q = none) ∧
    wfEntries ((init_attrs path attrs).getD []) = true ∧
    ((((init_attrs path attrs).getD []).map Prod.fst).Nodup) ∧
    renameSafeE ((init_attrs path attrs).getD []) = true ∧
    (∀ kv ∈ ((init_attrs path attrs).getD []), isScalar kv.2 = true) := by
  cases attrs with
  | nil =>
    exact ⟨rfl, fun q _ => rfl, rfl, List.nodup_nil, rfl,
      fun kv hkv => absurd hkv (List.not_mem_nil kv)⟩
  | cons na rest =>
    have hfacts := init_attrs_fold_facts a path (na :: rest) []
      rfl (fun q _ => rfl) rfl (by simp) rfl (by simp)
    have hrw : (init_attrs path (na :: rest)).getD [] =
        (na :: rest).foldl (fun d2 a2 =>
          let e := post_parse_node path (String.mk ('@' :: a2.1.data)) (.str a2.2)
          dinsert d2 e.1 e.2) [] := rfl
    simp only [hrw]
    exact hfacts

/-! ### Marker census through the conversion -/

theorem sharp_text_key_facts :
    pyStartsWith "#text" "@" = false ∧ splitSp "#text".data = ["#text".data] ∧
    ("#text" : String) ≠ "__xmlns__" := by
  refine ⟨by decide, by decide, by decide⟩

theorem pp_text_push_facts (a : String) (path : List String) (s : String) :
    markerCount a (post_parse_node path "#text" (.str s)).2 = 0 ∧
    (post_parse_node path "#text" (.str s)).1 = "#text" := by
  obtain ⟨h1, h2, _⟩ := sharp_text_key_facts
  rw [pp_single_case path "#text" (.str s) "#text".data h1 h2]
  exact ⟨markerCount_scalar a _ (ppScalarPipe_str_scalar s), rfl⟩

theorem elemValue_facts (a : String) (fl : List String) (path : List String)
    (k : String) (attrs : List (String × String)) (cs : List XTree)
    (tx : Option String)
    (hc : markerCountE a ((pushKids fl path cs (init_attrs path attrs)).getD []) = 0)
    (hl : dlookup ((pushKids fl path cs (init_attrs path attrs)).getD [])
      "__xmlns__" = none) :
    isScalar (elemValue fl path (.mk k attrs cs tx)) = true ∨
    (∃ es, elemValue fl path (.mk k attrs cs tx) = .dict es ∧
      markerCountE a es = 0 ∧ dlookup es "__xmlns__" = none) := by
  unfold pushKids at hc hl
  simp only [elemValue]
  rcases hitem : pushAll path fl (kidPairs fl path cs) (init_attrs path attrs) with _ | d
  · rcases tx with _ | s
    · exact Or.inl rfl
    · by_cases hs : s = ""
      · simp only [hs, if_pos rfl]
        exact Or.inl rfl
      · simp only [if_neg hs]
        exact Or.inl rfl
  · rw [hitem] at hc hl
    simp only [Option.getD_some] at hc hl
    rcases tx with _ | s
    · exact Or.inr ⟨d, rfl, hc, hl⟩
    · by_cases hs : s = ""
      · simp only [hs, if_pos rfl]
        exact Or.inr ⟨d, rfl, hc, hl⟩
      · simp only [if_neg hs]
        refine Or.inr ⟨_, rfl, ?_, ?_⟩
        · rw [push_data_count a path (some d) "#text" (.str s) fl]
          simp only [Option.getD_some]
          rw [hc, (pp_text_push_facts a path s).1]
        · rw [push_data_lookup path (some d) "#text" (.str s) fl "__xmlns__"
            (by rw [(pp_text_push_facts a path s).2]; exact (sharp_text_key_facts).2.2)]
          simpa using hl

theorem wfTree_parts (k : String) (attrs : List (String × String))
    (cs : List XTree) (tx : Option String)
    (h : wfTree (.mk k attrs cs tx) = true) :
    wfKey k = true ∧ wfForest cs = true := by
  simp only [wfTree, Bool.and_eq_true] at h
  exact ⟨h.1.1, h.2⟩

theorem treeHasNS_mk (a k : String) (attrs : List (String × String))
    (cs : List XTree) (tx : Option String) :
    treeHasNS a (.mk k attrs cs tx) =
      (pyStartsWith k (a ++ nsSep) || forestHasNS a cs) := rfl

theorem nsPrefCount_single (a k : String) :
    nsPrefCount a [k] = if pyStartsWith k (a ++ nsSep) = true then 1 else 0 := by
  simp [nsPrefCount, List.countP_cons]

theorem strMk_ne_of_ne (ns : List Char) (a : String) (h : a.data ≠ ns) :
    String.mk ns ≠ a := by
  intro he
  apply h
  have := congrArg String.data he
  exact this.symm

theorem markerCount_dict_none (a : String) (es : List (String × Val))
    (hl : dlookup es "__xmlns__" = none) (hc : markerCountE a es = 0) :
    markerCount a (.dict es) = 0 := by
  simp only [markerCount, hl]
  simp [hc]

theorem markerCount_dict_of_ne (a : String) (es : List (String × Val)) (w : Val)
    (hl : dlookup es "__xmlns__" = some w) (hw : w ≠ .str a)
    (hc : markerCountE a es = 0) : markerCount a (.dict es) = 0 := by
  simp only [markerCount, hl]
  rw [if_neg (by simp only [Option.some.injEq]; intro he; exact hw he)]
  simp [hc]

theorem pushKids_cons (fl p : List String) (c : XTree) (rest : List XTree)
    (item : Option (List (String × Val))) :
    pushKids fl p (c :: rest) item =
      pushKids fl p rest (some (push_data (p ++ [c.rawKey]) item c.rawKey
        (elemValue fl (p ++ [c.rawKey]) c) fl)) := by
  unfold pushKids
  simp only [kidPairs, pushAll]

mutual

theorem marker_zero_tree (a : String) (ha : goodAlias a = true) (fl : List String) :
    ∀ (t : XTree) (p : List String), wfTree t = true →
      (0 < nsPrefCount a p ∨ treeHasNS a t = false) →
      markerCount a (ppv fl p t).2 = 0
  | .mk k attrs cs tx, p, hwf, hcond => by
    obtain ⟨hkey, hkids⟩ := wfTree_parts k attrs cs tx hwf
    have hcond2 : 0 < nsPrefCount a (p ++ [k]) ∨ forestHasNS a cs = false := by
      rcases hcond with hcond | hcond
      · left
        rw [nsPrefCount_append]
        omega
      · right
        rw [treeHasNS_mk, Bool.or_eq_false_iff] at hcond
        exact hcond.2
    have hZ := marker_zero_forest a ha fl cs (p ++ [k])
      (init_attrs (p ++ [k]) attrs) hkids hcond2
    obtain ⟨hic, hilq, _⟩ := init_attrs_facts a (p ++ [k]) attrs
    have hil : dlookup ((init_attrs (p ++ [k]) attrs).getD []) "__xmlns__" = none :=
      hilq "__xmlns__" (by decide)
    have hc0 : markerCountE a
        ((pushKids fl (p ++ [k]) cs (init_attrs (p ++ [k]) attrs)).getD []) = 0 := by
      rw [hZ.1, hic]
    have hl0 : dlookup
        ((pushKids fl (p ++ [k]) cs (init_attrs (p ++ [k]) attrs)).getD [])
        "__xmlns__" = none := by
      rw [hZ.2, hil]
    have hppv : ppv fl p (.mk k attrs cs tx) =
        post_parse_node (p ++ [k]) k (elemValue fl (p ++ [k]) (.mk k attrs cs tx)) := rfl
    rcases elemValue_facts a fl (p ++ [k]) k attrs cs tx hc0 hl0 with hscal | ⟨es, heq, hec, hel⟩
    · -- scalar element value
      rw [hppv]
      have hat := wfKey_not_attr k hkey
      rcases wfKey_cases k hkey with ⟨l, hs, _⟩ | ⟨ns, l, hs, _, _⟩
      · rw [pp_single_case (p ++ [k]) k _ l hat hs]
        exact markerCount_scalar a _ (ppScalarPipe_scalar _ hscal)
      · rw [pp_pair_other_case (p ++ [k]) k ns l _ hat hs
          (by intro es2 he; rw [he] at hscal; simp [isScalar] at hscal)]
        exact markerCount_scalar a _ (ppScalarPipe_scalar _ hscal)
    · rw [hppv, heq]
      have hat := wfKey_not_attr k hkey
      rcases wfKey_cases k hkey with ⟨l, hs, _⟩ | ⟨ns, l, hs, hgns, _⟩
      · rw [pp_single_case (p ++ [k]) k _ l hat hs, ppScalarPipe_dict]
        exact markerCount_dict_none a es hel hec
      · rw [pp_pair_dict_case (p ++ [k]) k ns l es hat hs]
        by_cases hfound : List.countP
            (fun q => pyStartsWith q (String.mk ns ++ nsSep)) (p ++ [k]) = 1
        · rw [if_pos hfound]
          by_cases hba : a.data = ns
          · -- the element is in namespace a: the count cannot be one
            exfalso
            have hmk : String.mk ns = a := by
              rw [← hba]
            have hk_ns : pyStartsWith k (a ++ nsSep) = true :=
              (isNS_pair_iff a k ns l ha hs).mpr hba
            have hcc : List.countP
                (fun q => pyStartsWith q (String.mk ns ++ nsSep)) (p ++ [k]) =
                nsPrefCount a (p ++ [k]) := by
              rw [hmk]
              rfl
            rw [hcc, nsPrefCount_append, nsPrefCount_single, if_pos hk_ns] at hfound
            rcases hcond with hcond | hcond
            · omega
            · rw [treeHasNS_mk, Bool.or_eq_false_iff] at hcond
              rw [hcond.1] at hk_ns
              cases hk_ns
          · have hmkne : Val.str (String.mk ns) ≠ Val.str a := by
              intro he
              exact strMk_ne_of_ne ns a hba (by cases he; rfl)
            apply markerCount_dict_of_ne a _ (.str (String.mk ns))
              (dlookup_dinsert_self es "__xmlns__" _) hmkne
            rw [markerCountE_dinsert_none a es _ _ hel]
            simp [hec, markerCount]
        · rw [if_neg hfound]
          exact markerCount_dict_none a es hel hec

theorem marker_zero_forest (a : String) (ha : goodAlias a = true) (fl : List String) :
    ∀ (cs : List XTree) (p : List String) (item : Option (List (String × Val))),
      wfForest cs = true →
      (0 < nsPrefCount a p ∨ forestHasNS a cs = false) →
      markerCountE a ((pushKids fl p cs item).getD []) =
        markerCountE a (item.getD []) ∧
      dlookup ((pushKids fl p cs item).getD []) "__xmlns__" =
        dlookup (item.getD []) "__xmlns__"
  | [], p, item, _, _ => ⟨rfl, rfl⟩
  | c :: rest, p, item, hwf, hcond => by
    simp only [wfForest, Bool.and_eq_true] at hwf
    have hcondc : 0 < nsPrefCount a p ∨ treeHasNS a c = false := by
      rcases hcond with h | h
      · exact Or.inl h
      · simp only [forestHasNS, Bool.or_eq_false_iff] at h
        exact Or.inr h.1
    have hcondr : 0 < nsPrefCount a p ∨ forestHasNS a rest = false := by
      rcases hcond with h | h
      · exact Or.inl h
      · simp only [forestHasNS, Bool.or_eq_false_iff] at h
        exact Or.inr h.2
    have hctree := marker_zero_tree a ha fl c p hwf.1 hcondc
    have hrest := marker_zero_forest a ha fl rest p
      (some (push_data (p ++ [c.rawKey]) item c.rawKey
        (elemValue fl (p ++ [c.rawKey]) c) fl)) hwf.2 hcondr
    have hkeym : (post_parse_node (p ++ [c.rawKey]) c.rawKey
        (elemValue fl (p ++ [c.rawKey]) c)).1 ≠ "__xmlns__" := by
      have hwk : wfKey c.rawKey = true := by
        cases c with
        | mk k2 a2 c2 t2 => exact (wfTree_parts k2 a2 c2 t2 hwf.1).1
      rw [pp_key_eq_localKey]
      · exact (goodName_str_facts _ (localKey_good c.rawKey hwk)).1
      · exact hwk
    rw [pushKids_cons]
    constructor
    · rw [hrest.1]
      simp only [Option.getD_some]
      rw [push_data_count a (p ++ [c.rawKey]) item c.rawKey
        (elemValue fl (p ++ [c.rawKey]) c) fl]
      have : markerCount a (post_parse_node (p ++ [c.rawKey]) c.rawKey
          (elemValue fl (p ++ [c.rawKey]) c)).2 = 0 := hctree
      omega
    · rw [hrest.2]
      simp only [Option.getD_some]
      exact push_data_lookup (p ++ [c.rawKey]) item c.rawKey
        (elemValue fl (p ++ [c.rawKey]) c) fl "__xmlns__" hkeym

end

theorem pushAll_some (path fl : List String) :
    ∀ (pairs : List (String × Val)) (d : List (String × Val)),
      ∃ d2, pushAll path fl pairs (some d) = some d2
  | [], d => ⟨d, rfl⟩
  | (k, v) :: rest, d => by
    simp only [pushAll]
    exact pushAll_some path fl rest _

theorem pushKids_isSome (fl path : List String) (c : XTree) (rest : List XTree)
    (item : Option (List (String × Val))) :
    ∃ d2, pushKids fl path (c :: rest) item = some d2 := by
  rw [pushKids_cons]
  unfold pushKids
  exact pushAll_some path fl _ _

theorem elemValue_dict_facts (a : String) (fl : List String) (path : List String)
    (k : String) (attrs : List (String × String)) (cs : List XTree)
    (tx : Option String) (n : Nat)
    (hkids : cs ≠ [])
    (hc : markerCountE a ((pushKids fl path cs (init_attrs path attrs)).getD []) = n)
    (hl : dlookup ((pushKids fl path cs (init_attrs path attrs)).getD [])
      "__xmlns__" = none) :
    ∃ es, elemValue fl path (.mk k attrs cs tx) = .dict es ∧
      markerCountE a es = n ∧ dlookup es "__xmlns__" = none := by
  obtain ⟨c, rest, rfl⟩ : ∃ c rest, cs = c :: rest := by
    cases cs with
    | nil => exact absurd rfl hkids
    | cons c rest => exact ⟨c, rest, rfl⟩
  obtain ⟨d, hd⟩ := pushKids_isSome fl path c rest (init_attrs path attrs)
  unfold pushKids at hc hl hd
  simp only [elemValue]
  rw [hd] at hc hl
  simp only [Option.getD_some] at hc hl
  rw [hd]
  rcases tx with _ | s
  · exact ⟨d, rfl, hc, hl⟩
  · by_cases hs : s = ""
    · simp only [hs, if_pos rfl]
      exact ⟨d, rfl, hc, hl⟩
    · simp only [if_neg hs]
      refine ⟨_, rfl, ?_, ?_⟩
      · rw [push_data_count a path (some d) "#text" (.str s) fl]
        simp only [Option.getD_some]
        rw [hc, (pp_text_push_facts a path s).1]
        omega
      · rw [push_data_lookup path (some d) "#text" (.str s) fl "__xmlns__"
          (by rw [(pp_text_push_facts a path s).2]; exact (sharp_text_key_facts).2.2)]
        simpa using hl

/-- At the root of the namespace with alias a: the pushed value is a dict
whose top carries the sentinel for a, and no deeper node carries it. -/
theorem root_marker_lemma (a : String) (ha : goodAlias a = true) (fl : List String)
    (k : String) (attrs : List (String × String)) (cs : List XTree)
    (tx : Option String) (p : List String)
    (hwf : wfTree (.mk k attrs cs tx) = true)
    (hns : pyStartsWith k (a ++ nsSep) = true) (hkids : cs ≠ [])
    (hp : nsPrefCount a p = 0) :
    ∃ es, (ppv fl p (.mk k attrs cs tx)).2 = .dict es ∧
      dlookup es "__xmlns__" = some (.str a) ∧ markerCountE a es = 0 := by
  obtain ⟨hkey, hkidswf⟩ := wfTree_parts k attrs cs tx hwf
  have hcond2 : 0 < nsPrefCount a (p ++ [k]) ∨ forestHasNS a cs = false := by
    left
    rw [nsPrefCount_append, nsPrefCount_single, if_pos hns]
    omega
  have hZ := marker_zero_forest a ha fl cs (p ++ [k])
    (init_attrs (p ++ [k]) attrs) hkidswf hcond2
  obtain ⟨hic, hilq, _⟩ := init_attrs_facts a (p ++ [k]) attrs
  have hil : dlookup ((init_attrs (p ++ [k]) attrs).getD []) "__xmlns__" = none :=
    hilq "__xmlns__" (by decide)
  obtain ⟨es1, heq1, hec1, hel1⟩ := elemValue_dict_facts a fl (p ++ [k]) k attrs cs tx 0
    hkids (by rw [hZ.1, hic]) (by rw [hZ.2, hil])
  have hppv : ppv fl p (.mk k attrs cs tx) =
      post_parse_node (p ++ [k]) k (elemValue fl (p ++ [k]) (.mk k attrs cs tx)) := rfl
  rcases wfKey_cases k hkey with ⟨l, hs, _⟩ | ⟨ns, l, hs, _, _⟩
  · rw [notNS_single a k l hs] at hns
    cases hns
  · have hba : a.data = ns := (isNS_pair_iff a k ns l ha hs).mp hns
    have hmk : String.mk ns = a := by rw [← hba]
    have hat := wfKey_not_attr k hkey
    rw [hppv, heq1, pp_pair_dict_case (p ++ [k]) k ns l es1 hat hs]
    have hfound : List.countP
        (fun q => pyStartsWith q (String.mk ns ++ nsSep)) (p ++ [k]) = 1 := by
      have hcc : List.countP
          (fun q => pyStartsWith q (String.mk ns ++ nsSep)) (p ++ [k]) =
          nsPrefCount a (p ++ [k]) := by
        rw [hmk]
        rfl
      rw [hcc, nsPrefCount_append, nsPrefCount_single, if_pos hns, hp]
    rw [if_pos hfound]
    refine ⟨_, rfl, ?_, ?_⟩
    · rw [dlookup_dinsert_self, hmk]
    · rw [markerCountE_dinsert_none a es1 _ _ hel1]
      simp [hec1, markerCount]

theorem forestHasNS_ne_nil (a : String) (cs : List XTree)
    (h : forestHasNS a cs = true) : cs ≠ [] := by
  intro he
  subst he
  cases h

theorem uniqueNSForest_ne_nil (a : String) (cs : List XTree)
    (h : uniqueNSForest a cs = true) : cs ≠ [] := by
  intro he
  subst he
  cases h

mutual

theorem marker_one_tree (a : String) (ha : goodAlias a = true) (fl : List String) :
    ∀ (t : XTree) (p : List String), wfTree t = true → uniqueNSRoot a t = true →
      nsPrefCount a p = 0 → markerCount a (ppv fl p t).2 = 1
  | .mk k attrs cs tx, p, hwf, huniq, hp => by
    by_cases hns : pyStartsWith k (a ++ nsSep) = true
    · have hforest : forestHasNS a cs = true := by
        have : uniqueNSRoot a (.mk k attrs cs tx) = forestHasNS a cs := by
          simp only [uniqueNSRoot, if_pos hns]
        rw [← this]
        exact huniq
      obtain ⟨es, heq, hlook, hcnt⟩ := root_marker_lemma a ha fl k attrs cs tx p hwf
        hns (forestHasNS_ne_nil a cs hforest) hp
      rw [heq]
      simp only [markerCount, hlook]
      simp [hcnt]
    · obtain ⟨hkey, hkidswf⟩ := wfTree_parts k attrs cs tx hwf
      have huniq2 : uniqueNSForest a cs = true := by
        have : uniqueNSRoot a (.mk k attrs cs tx) = uniqueNSForest a cs := by
          simp only [uniqueNSRoot, if_neg hns]
        rw [← this]
        exact huniq
      have hp2 : nsPrefCount a (p ++ [k]) = 0 := by
        rw [nsPrefCount_append, nsPrefCount_single, if_neg hns, hp]
      have hU := marker_one_forest a ha fl cs (p ++ [k])
        (init_attrs (p ++ [k]) attrs) hkidswf huniq2 hp2
      obtain ⟨hic, hilq, _⟩ := init_attrs_facts a (p ++ [k]) attrs
      have hil : dlookup ((init_attrs (p ++ [k]) attrs).getD []) "__xmlns__" = none :=
        hilq "__xmlns__" (by decide)
      obtain ⟨es1, heq1, hec1, hel1⟩ := elemValue_dict_facts a fl (p ++ [k]) k attrs cs tx 1
        (uniqueNSForest_ne_nil a cs huniq2) (by rw [hU.1, hic]) (by rw [hU.2, hil])
      have hppv : ppv fl p (.mk k attrs cs tx) =
          post_parse_node (p ++ [k]) k (elemValue fl (p ++ [k]) (.mk k attrs cs tx)) := rfl
      have hat := wfKey_not_attr k hkey
      rw [hppv, heq1]
      rcases wfKey_cases k hkey with ⟨l, hs, _⟩ | ⟨ns, l, hs, _, _⟩
      · rw [pp_single_case (p ++ [k]) k _ l hat hs, ppScalarPipe_dict]
        simp only [markerCount, hel1]
        simp [hec1]
      · rw [pp_pair_dict_case (p ++ [k]) k ns l es1 hat hs]
        have hba : a.data ≠ ns := by
          intro he
          rw [(isNS_pair_iff a k ns l ha hs).mpr he] at hns
          exact hns rfl
        by_cases hfound : List.countP
            (fun q => pyStartsWith q (String.mk ns ++ nsSep)) (p ++ [k]) = 1
        · rw [if_pos hfound]
          have hmkne : Val.str (String.mk ns) ≠ Val.str a := by
            intro he
            exact strMk_ne_of_ne ns a hba (by cases he; rfl)
          simp only [markerCount, dlookup_dinsert_self]
          rw [if_neg (by simp only [Option.some.injEq]; intro he; exact hmkne (by rw [he]))]
          rw [markerCountE_dinsert_none a es1 _ _ hel1]
          simp [hec1, markerCount]
        · rw [if_neg hfound]
          simp only [markerCount, hel1]
          simp [hec1]

theorem marker_one_forest (a : String) (ha : goodAlias a = true) (fl : List String) :
    ∀ (cs : List XTree) (p : List String) (item : Option (List (String × Val))),
      wfForest cs = true → uniqueNSForest a cs = true → nsPrefCount a p = 0 →
      markerCountE a ((pushKids fl p cs item).getD []) =
        markerCountE a (item.getD []) + 1 ∧
      dlookup ((pushKids fl p cs item).getD []) "__xmlns__" =
        dlookup (item.getD []) "__xmlns__"
  | [], p, item, _, huniq, _ => by cases huniq
  | c :: rest, p, item, hwf, huniq, hp => by
    simp only [wfForest, Bool.and_eq_true] at hwf
    have hkeym : (post_parse_node (p ++ [c.rawKey]) c.rawKey
        (elemValue fl (p ++ [c.rawKey]) c)).1 ≠ "__xmlns__" := by
      have hwk : wfKey c.rawKey = true := by
        cases c with
        | mk k2 a2 c2 t2 => exact (wfTree_parts k2 a2 c2 t2 hwf.1).1
      rw [pp_key_eq_localKey]
      · exact (goodName_str_facts _ (localKey_good c.rawKey hwk)).1
      · exact hwk
    rw [pushKids_cons]
    by_cases hch : treeHasNS a c = true
    · have huniq2 : uniqueNSRoot a c = true ∧ forestHasNS a rest = false := by
        have : uniqueNSForest a (c :: rest) =
            (uniqueNSRoot a c && !forestHasNS a rest) := by
          simp only [uniqueNSForest, if_pos hch]
        rw [this] at huniq
        simp only [Bool.and_eq_true, Bool.not_eq_eq_eq_not, Bool.not_true] at huniq
        exact huniq
      have hctree := marker_one_tree a ha fl c p hwf.1 huniq2.1 hp
      have hrest := marker_zero_forest a ha fl rest p
        (some (push_data (p ++ [c.rawKey]) item c.rawKey
          (elemValue fl (p ++ [c.rawKey]) c) fl)) hwf.2 (Or.inr huniq2.2)
      constructor
      · rw [hrest.1]
        simp only [Option.getD_some]
        rw [push_data_count a (p ++ [c.rawKey]) item c.rawKey
          (elemValue fl (p ++ [c.rawKey]) c) fl]
        have : markerCount a (post_parse_node (p ++ [c.rawKey]) c.rawKey
            (elemValue fl (p ++ [c.rawKey]) c)).2 = 1 := hctree
        omega
      · rw [hrest.2]
        simp only [Option.getD_some]
        exact push_data_lookup (p ++ [c.rawKey]) item c.rawKey
          (elemValue fl (p ++ [c.rawKey]) c) fl "__xmlns__" hkeym
    · have huniq2 : uniqueNSForest a rest = true := by
        have : uniqueNSForest a (c :: rest) = uniqueNSForest a rest := by
          simp only [uniqueNSForest, if_neg hch]
        rw [← this]
        exact huniq
      have hctree := marker_zero_tree a ha fl c p hwf.1
        (Or.inr (Bool.eq_false_iff.mpr hch))
      have hrest := marker_one_forest a ha fl rest p
        (some (push_data (p ++ [c.rawKey]) item c.rawKey
          (elemValue fl (p ++ [c.rawKey]) c) fl)) hwf.2 huniq2 hp
      constructor
      · rw [hrest.1]
        simp only [Option.getD_some]
        rw [push_data_count a (p ++ [c.rawKey]) item c.rawKey
          (elemValue fl (p ++ [c.rawKey]) c) fl]
        have : markerCount a (post_parse_node (p ++ [c.rawKey]) c.rawKey
            (elemValue fl (p ++ [c.rawKey]) c)).2 = 0 := hctree
        omega
      · rw [hrest.2]
        simp only [Option.getD_some]
        exact push_data_lookup (p ++ [c.rawKey]) item c.rawKey
          (elemValue fl (p ++ [c.rawKey]) c) fl "__xmlns__" hkeym

end

/-! ### Wellformedness of converted values -/

theorem wfVList_append (xs : List Val) (v : Val) (hxs : wfVList xs = true)
    (hv : wfVal v = true) : wfVList (xs ++ [v]) = true := by
  induction xs with
  | nil => simp [wfVList, hv]
  | cons x rest ih =>
    simp only [wfVList, Bool.and_eq_true] at hxs
    simp only [List.cons_append, wfVList, Bool.and_eq_true]
    exact ⟨hxs.1, ih hxs.2⟩

theorem renameSafeL_append (pk : String) (xs : List Val) (v : Val)
    (hxs : renameSafeL pk xs = true) (hv : renameSafe pk v = true) :
    renameSafeL pk (xs ++ [v]) = true := by
  induction xs with
  | nil => simp [renameSafeL, hv]
  | cons x rest ih =>
    simp only [renameSafeL, Bool.and_eq_true] at hxs
    simp only [List.cons_append, renameSafeL, Bool.and_eq_true]
    exact ⟨hxs.1, ih hxs.2⟩

theorem wfVal_pair (a b : Val) (ha : wfVal a = true) (hb : wfVal b = true) :
    wfVal (.list [a, b]) = true := by
  simp [wfVal, wfVList, ha, hb]

theorem wfVal_single (a : Val) (ha : wfVal a = true) : wfVal (.list [a]) = true := by
  simp [wfVal, wfVList, ha]

theorem renameSafe_pair (pk : String) (a b : Val) (ha : renameSafe pk a = true)
    (hb : renameSafe pk b = true) : renameSafe pk (.list [a, b]) = true := by
  simp [renameSafe, renameSafeL, ha, hb]

theorem renameSafe_single (pk : String) (a : Val) (ha : renameSafe pk a = true) :
    renameSafe pk (.list [a]) = true := by
  simp [renameSafe, renameSafeL, ha]

theorem push_data_wf (path : List String) (item : Option (List (String × Val)))
    (key : String) (data : Val) (fl : List String)
    (hk2a : pyStartsWith (post_parse_node path key data).1 "@" = false)
    (hk2at : (post_parse_node path key data).1.data.contains '@' = false)
    (hk2m : (post_parse_node path key data).1 ≠ "__xmlns__")
    (hv2wf : wfVal (post_parse_node path key data).2 = true)
    (hv2rs : renameSafe (post_parse_node path key data).1
      (post_parse_node path key data).2 = true)
    (hwf : wfEntries (item.getD []) = true)
    (hnd : ((item.getD []).map Prod.fst).Nodup)
    (hrs : renameSafeE (item.getD []) = true) :
    wfEntries (push_data path item key data fl) = true ∧
    ((push_data path item key data fl).map Prod.fst).Nodup ∧
    renameSafeE (push_data path item key data fl) = true := by
  have hcond1 : ∀ w : Val,
      (if pyStartsWith (post_parse_node path key data).1 "@" = true
        then isScalar w
        else !((post_parse_node path key data).1.data.contains '@')) = true := by
    intro w
    rw [hk2a]
    simp only [Bool.false_eq_true, if_false, Bool.not_eq_true']
    exact hk2at
  have hcond2 : ∀ w : Val,
      (!((post_parse_node path key data).1 == "__xmlns__") || isStrVal w) = true := by
    intro w
    simp [hk2m]
  unfold push_data
  rcases hl : dlookup (item.getD []) (post_parse_node path key data).1 with _ | old
  · simp only [hl]
    by_cases hf : fl.contains (post_parse_node path key data).1
    · simp only [hf, if_true]
      exact ⟨wfEntries_dinsert _ _ _ hwf (hcond1 _) (hcond2 _)
          (wfVal_single _ hv2wf),
        dinsert_keys_nodup _ _ _ hnd,
        renameSafeE_dinsert _ _ _ hrs (renameSafe_single _ _ hv2rs)⟩
    · simp only [hf, Bool.false_eq_true, if_false]
      exact ⟨wfEntries_dinsert _ _ _ hwf (hcond1 _) (hcond2 _) hv2wf,
        dinsert_keys_nodup _ _ _ hnd,
        renameSafeE_dinsert _ _ _ hrs hv2rs⟩
  · have hold := wfEntries_dlookup _ _ _ hwf hl
    have holdrs := renameSafeE_dlookup _ _ _ hrs hl
    cases old with
    | list xs =>
      simp only [hl]
      have hxs : wfVList xs = true := by
        have := hold.1
        simpa [wfVal] using this
      have hxsrs : renameSafeL (post_parse_node path key data).1 xs = true := by
        have := holdrs
        simpa [renameSafe] using this
      refine ⟨wfEntries_dinsert _ _ _ hwf (hcond1 _) (hcond2 _) ?_,
        dinsert_keys_nodup _ _ _ hnd,
        renameSafeE_dinsert _ _ _ hrs ?_⟩
      · simp only [wfVal]
        exact wfVList_append xs _ hxs hv2wf
      · simp only [renameSafe]
        exact renameSafeL_append _ xs _ hxsrs hv2rs
    | str t =>
      simp only [hl]
      exact ⟨wfEntries_dinsert _ _ _ hwf (hcond1 _) (hcond2 _)
          (wfVal_pair _ _ hold.1 hv2wf),
        dinsert_keys_nodup _ _ _ hnd,
        renameSafeE_dinsert _ _ _ hrs (renameSafe_pair _ _ _ holdrs hv2rs)⟩
    | int n =>
      simp only [hl]
      exact ⟨wfEntries_dinsert _ _ _ hwf (hcond1 _) (hcond2 _)
          (wfVal_pair _ _ hold.1 hv2wf),
        dinsert_keys_nodup _ _ _ hnd,
        renameSafeE_dinsert _ _ _ hrs (renameSafe_pair _ _ _ holdrs hv2rs)⟩
    | float q =>
      simp only [hl]
      exact ⟨wfEntries_dinsert _ _ _ hwf (hcond1 _) (hcond2 _)
          (wfVal_pair _ _ hold.1 hv2wf),
        dinsert_keys_nodup _ _ _ hnd,
        renameSafeE_dinsert _ _ _ hrs (renameSafe_pair _ _ _ holdrs hv2rs)⟩
    | pynone =>
      simp only [hl]
      exact ⟨wfEntries_dinsert _ _ _ hwf (hcond1 _) (hcond2 _)
          (wfVal_pair _ _ hold.1 hv2wf),
        dinsert_keys_nodup _ _ _ hnd,
        renameSafeE_dinsert _ _ _ hrs (renameSafe_pair _ _ _ holdrs hv2rs)⟩
    | dict es2 =>
      simp only [hl]
      exact ⟨wfEntries_dinsert _ _ _ hwf (hcond1 _) (hcond2 _)
          (wfVal_pair _ _ hold.1 hv2wf),
        dinsert_keys_nodup _ _ _ hnd,
        renameSafeE_dinsert _ _ _ hrs (renameSafe_pair _ _ _ holdrs hv2rs)⟩

theorem containsStr_iff (l : List String) (x : String) :
    l.contains x = true ↔ x ∈ l := by
  simp [List.contains, List.elem_iff]

theorem forest_localKeys_good :
    ∀ (cs : List XTree), wfForest cs = true →
      ∀ c ∈ cs, goodNameC (localKey c.rawKey).data = true
  | [], _, c, hc => absurd hc (List.not_mem_nil c)
  | c0 :: rest, hwf, c, hc => by
    simp only [wfForest, Bool.and_eq_true] at hwf
    rcases List.mem_cons.mp hc with rfl | hc2
    · have hwk : wfKey c.rawKey = true := by
        cases c with
        | mk k2 a2 c2 t2 => exact (wfTree_parts k2 a2 c2 t2 hwf.1).1
      exact localKey_good c.rawKey hwk
    · exact forest_localKeys_good rest hwf.2 c hc2

theorem wfVal_dict_intro (es : List (String × Val)) (hw : wfEntries es = true)
    (hnd : (es.map Prod.fst).Nodup) : wfVal (.dict es) = true := by
  simp [wfVal, hw, hnd]

theorem renameSafe_dict_intro (pk : String) (es : List (String × Val))
    (htop : dlookup es "#text" = none ∨ dlookup es pk = none)
    (hrs : renameSafeE es = true) : renameSafe pk (.dict es) = true := by
  simp only [renameSafe, Bool.and_eq_true, Bool.or_eq_true]
  refine ⟨?_, hrs⟩
  rcases htop with h | h
  · left
    rw [h]
    rfl
  · right
    rw [h]
    rfl

theorem conv_wf_pp_scalar (p : List String) (k : String) (v : Val)
    (hkey : wfKey k = true) (hscal : isScalar v = true) :
    wfVal (post_parse_node p k v).2 = true ∧
    renameSafe (localKey k) (post_parse_node p k v).2 = true := by
  have hat := wfKey_not_attr k hkey
  rcases wfKey_cases k hkey with ⟨l, hs, _⟩ | ⟨ns, l, hs, _, _⟩
  · rw [pp_single_case p k v l hat hs]
    exact ⟨wfVal_scalar _ (ppScalarPipe_scalar _ hscal),
      renameSafe_scalar _ _ (ppScalarPipe_scalar _ hscal)⟩
  · rw [pp_pair_other_case p k ns l v hat hs
      (by intro es2 he; rw [he] at hscal; simp [isScalar] at hscal)]
    exact ⟨wfVal_scalar _ (ppScalarPipe_scalar _ hscal),
      renameSafe_scalar _ _ (ppScalarPipe_scalar _ hscal)⟩

theorem wfcond1_of_not_attr (k : String) (v : Val)
    (hk : pyStartsWith k "@" = false) (hc : k.data.contains '@' = false) :
    (if pyStartsWith k "@" = true then isScalar v else !(k.data.contains '@')) = true := by
  rw [hk]
  simp only [Bool.false_eq_true, if_false, Bool.not_eq_true']
  exact hc

theorem conv_wf_pp_dict (p : List String) (k : String) (es : List (String × Val))
    (hkey : wfKey k = true)
    (hw : wfEntries es = true) (hnd : (es.map Prod.fst).Nodup)
    (hrs : renameSafeE es = true)
    (htop : dlookup es "#text" = none ∨ dlookup es (localKey k) = none) :
    wfVal (post_parse_node p k (.dict es)).2 = true ∧
    renameSafe (localKey k) (post_parse_node p k (.dict es)).2 = true := by
  have hat := wfKey_not_attr k hkey
  have hlkm := (goodName_str_facts _ (localKey_good k hkey)).1
  rcases wfKey_cases k hkey with ⟨l, hs, _⟩ | ⟨ns, l, hs, _, _⟩
  · rw [pp_single_case p k _ l hat hs, ppScalarPipe_dict]
    exact ⟨wfVal_dict_intro es hw hnd, renameSafe_dict_intro _ es htop hrs⟩
  · rw [pp_pair_dict_case p k ns l es hat hs]
    by_cases hfound : List.countP (fun q => pyStartsWith q (String.mk ns ++ nsSep)) p = 1
    · rw [if_pos hfound]
      have hxm : ("__xmlns__" : String) ≠ "#text" := by decide
      have hxlk : ("__xmlns__" : String) ≠ localKey k := fun he => hlkm he.symm
      refine ⟨?_, ?_⟩
      · exact wfVal_dict_intro _
          (wfEntries_dinsert _ _ _ hw
            (wfcond1_of_not_attr _ _ (by decide) (by decide)) rfl rfl)
          (dinsert_keys_nodup _ _ _ hnd)
      · refine renameSafe_dict_intro _ _ ?_
          (renameSafeE_dinsert _ _ _ hrs rfl)
        rcases htop with h | h
        · left
          rw [dlookup_dinsert_ne es _ _ _ hxm]
          exact h
        · right
          rw [dlookup_dinsert_ne es _ _ _ hxlk]
          exact h
    · rw [if_neg hfound]
      exact ⟨wfVal_dict_intro es hw hnd, renameSafe_dict_intro _ es htop hrs⟩

/-! The converted value of every wellformed, text safe element is a
wellformed value that is safe for the reshaping rename under its own
normalized key; and pushing a wellformed forest onto a wellformed item
keeps the item wellformed and only touches the keys of the forest. -/
mutual

theorem conv_wf_tree (fl : List String) :
    ∀ (t : XTree) (p : List String), wfTree t = true → textSafeTree t = true →
      wfVal (ppv fl p t).2 = true ∧
      renameSafe (localKey t.rawKey) (ppv fl p t).2 = true
  | .mk k attrs cs tx, p, hwf, hts => by
    obtain ⟨hkey, hkidswf⟩ := wfTree_parts k attrs cs tx hwf
    simp only [textSafeTree, Bool.and_eq_true] at hts
    obtain ⟨htx, htsf⟩ := hts
    obtain ⟨_, hilq, hiw, hind, hirs, _⟩ := init_attrs_facts "" (p ++ [k]) attrs
    obtain ⟨hdw, hdnd, hdrs, hdlk⟩ := conv_wf_forest fl cs (p ++ [k])
      (init_attrs (p ++ [k]) attrs) hkidswf htsf hiw hind hirs
    have hppv : ppv fl p (.mk k attrs cs tx) =
        post_parse_node (p ++ [k]) k (elemValue fl (p ++ [k]) (.mk k attrs cs tx)) := rfl
    have hgnk := goodName_str_facts _ (localKey_good k hkey)
    have hnotext : ∀ c ∈ cs, localKey c.rawKey ≠ "#text" := fun c hc =>
      (goodName_str_facts _ (forest_localKeys_good cs hkidswf c hc)).2.1
    have hsharp : dlookup ((pushKids fl (p ++ [k]) cs
        (init_attrs (p ++ [k]) attrs)).getD []) "#text" = none := by
      rw [hdlk "#text" hnotext]
      exact hilq "#text" (by decide)
    rcases hd : pushKids fl (p ++ [k]) cs (init_attrs (p ++ [k]) attrs) with _ | d
    · have hscal : isScalar (elemValue fl (p ++ [k]) (.mk k attrs cs tx)) = true := by
        unfold pushKids at hd
        simp only [elemValue]
        rw [hd]
        rcases tx with _ | s
        · rfl
        · by_cases hs0 : s = ""
          · simp only [hs0, if_pos rfl]
            rfl
          · simp only [if_neg hs0]
            rfl
      rw [hppv]
      exact conv_wf_pp_scalar (p ++ [k]) k _ hkey hscal
    · rw [hd] at hsharp
      simp only [Option.getD_some] at hsharp
      have hdw2 : wfEntries d = true := by
        rw [hd] at hdw
        simpa using hdw
      have hdnd2 : (d.map Prod.fst).Nodup := by
        rw [hd] at hdnd
        simpa using hdnd
      have hdrs2 : renameSafeE d = true := by
        rw [hd] at hdrs
        simpa using hdrs
      rcases tx with _ | s
      · have hev : elemValue fl (p ++ [k]) (.mk k attrs cs none) = .dict d := by
          unfold pushKids at hd
          simp only [elemValue]
          rw [hd]
        rw [hppv, hev]
        exact conv_wf_pp_dict (p ++ [k]) k d hkey hdw2 hdnd2 hdrs2 (Or.inl hsharp)
      · by_cases hs0 : s = ""
        · subst hs0
          have hev : elemValue fl (p ++ [k]) (.mk k attrs cs (some "")) = .dict d := by
            unfold pushKids at hd
            simp only [elemValue]
            rw [hd]
            rfl
          rw [hppv, hev]
          exact conv_wf_pp_dict (p ++ [k]) k d hkey hdw2 hdnd2 hdrs2 (Or.inl hsharp)
        · have hev : elemValue fl (p ++ [k]) (.mk k attrs cs (some s)) =
              .dict (push_data (p ++ [k]) (some d) "#text" (.str s) fl) := by
            unfold pushKids at hd
            simp only [elemValue]
            rw [hd]
            simp only [if_neg hs0]
          have hpp := pp_single_case (p ++ [k]) "#text" (.str s) "#text".data
            sharp_text_key_facts.1 sharp_text_key_facts.2.1
          obtain ⟨he1w, he1nd, he1rs⟩ := push_data_wf (p ++ [k]) (some d) "#text"
            (.str s) fl
            (by rw [hpp]; show pyStartsWith "#text" "@" = false; decide)
            (by rw [hpp]; show ("#text" : String).data.contains '@' = false; decide)
            (by rw [hpp]; show ("#text" : String) ≠ "__xmlns__"; decide)
            (by rw [hpp]; exact wfVal_scalar _ (ppScalarPipe_str_scalar s))
            (by rw [hpp]; exact renameSafe_scalar _ _ (ppScalarPipe_str_scalar s))
            hdw2 hdnd2 hdrs2
          have hstx : ∀ c2 ∈ cs, localKey c2.rawKey ≠ localKey k := by
            intro c2 hc2 he
            simp only [if_neg hs0] at htx
            rw [Bool.not_eq_true'] at htx
            have hmem : localKey k ∈ cs.map (fun c => localKey c.rawKey) :=
              List.mem_map.mpr ⟨c2, hc2, he⟩
            have hcontr := (containsStr_iff _ _).mpr hmem
            rw [htx] at hcontr
            exact Bool.false_ne_true hcontr
          have htopr : dlookup (push_data (p ++ [k]) (some d) "#text" (.str s) fl)
              (localKey k) = none := by
            rw [push_data_lookup (p ++ [k]) (some d) "#text" (.str s) fl (localKey k)
              (by rw [hpp]; intro he; exact hgnk.2.1 he.symm)]
            simp only [Option.getD_some]
            have h2 := hdlk (localKey k) hstx
            rw [hd] at h2
            simp only [Option.getD_some] at h2
            rw [h2]
            exact hilq (localKey k) hgnk.2.2.1
          rw [hppv, hev]
          exact conv_wf_pp_dict (p ++ [k]) k _ hkey he1w he1nd he1rs (Or.inr htopr)

theorem conv_wf_forest (fl : List String) :
    ∀ (cs : List XTree) (p : List String) (item : Option (List (String × Val))),
      wfForest cs = true → textSafeForest cs = true →
      wfEntries (item.getD []) = true →
      ((item.getD []).map Prod.fst).Nodup →
      renameSafeE (item.getD []) = true →
      wfEntries ((pushKids fl p cs item).getD []) = true ∧
      (((pushKids fl p cs item).getD []).map Prod.fst).Nodup ∧
      renameSafeE ((pushKids fl p cs item).getD []) = true ∧
      (∀ q : String, (∀ c ∈ cs, localKey c.rawKey ≠ q) →
        dlookup ((pushKids fl p cs item).getD []) q = dlookup (item.getD []) q)
  | [], p, item, _, _, hw, hnd, hrs => ⟨hw, hnd, hrs, fun _ _ => rfl⟩
  | c :: rest, p, item, hwf, hts, hw, hnd, hrs => by
    simp only [wfForest, Bool.and_eq_true] at hwf
    simp only [textSafeForest, Bool.and_eq_true] at hts
    have hwk : wfKey c.rawKey = true := by
      cases c with
      | mk k2 a2 c2 t2 => exact (wfTree_parts k2 a2 c2 t2 hwf.1).1
    have hcv := conv_wf_tree fl c p hwf.1 hts.1
    have hppk : (post_parse_node (p ++ [c.rawKey]) c.rawKey
        (elemValue fl (p ++ [c.rawKey]) c)).1 = localKey c.rawKey :=
      pp_key_eq_localKey _ _ _ hwk
    have hgn := goodName_str_facts _ (localKey_good c.rawKey hwk)
    have hstep := push_data_wf (p ++ [c.rawKey]) item c.rawKey
      (elemValue fl (p ++ [c.rawKey]) c) fl
      (by rw [hppk]; exact hgn.2.2.1)
      (by rw [hppk]; exact hgn.2.2.2)
      (by rw [hppk]; exact hgn.1)
      hcv.1
      (by rw [hppk]; exact hcv.2)
      hw hnd hrs
    have hrest := conv_wf_forest fl rest p
      (some (push_data (p ++ [c.rawKey]) item c.rawKey
        (elemValue fl (p ++ [c.rawKey]) c) fl)) hwf.2 hts.2
      hstep.1 hstep.2.1 hstep.2.2
    rw [pushKids_cons]
    refine ⟨hrest.1, hrest.2.1, hrest.2.2.1, ?_⟩
    intro q hq
    rw [hrest.2.2.2 q (fun c2 hc2 => hq c2 (List.mem_cons_of_mem c hc2))]
    simp only [Option.getD_some]
    exact push_data_lookup (p ++ [c.rawKey]) item c.rawKey
      (elemValue fl (p ++ [c.rawKey]) c) fl q
      (by rw [hppk]; exact hq c (List.mem_cons_self c rest))

end

/-! ### Replaying assignment lists: the reshaping pass support facts -/

/-- Keys may repeat in a replayed assignment list only when the earlier
entry is an attribute entry: its key holds an at sign and its value is
scalar. -/
def ppaR (x y : String × Val) : Prop :=
  x.1 = y.1 → (x.1.data.contains '@' = true ∧ isScalar x.2 = true)

theorem pairwise_of_left (l : List (String × Val))
    (h : ∀ kv ∈ l, kv.1.data.contains '@' = true ∧ isScalar kv.2 = true) :
    List.Pairwise ppaR l := by
  induction l with
  | nil => exact List.Pairwise.nil
  | cons kv rest ih =>
    refine List.Pairwise.cons ?_ (ih fun x hx => h x (List.mem_cons_of_mem _ hx))
    intro y hy heq
    exact h kv (List.mem_cons_self _ _)

theorem pairwise_head_ne (kv : String × Val) (rest : List (String × Val))
    (hp : List.Pairwise ppaR (kv :: rest)) (hq : kv.1.data.contains '@' = false) :
    kv.1 ∉ rest.map Prod.fst := by
  intro hm
  obtain ⟨y, hy, he⟩ := List.mem_map.mp hm
  have h2 := (List.pairwise_cons.mp hp).1 y hy he.symm
  rw [hq] at h2
  exact Bool.false_ne_true h2.1

theorem ne_of_contains_mismatch (x y : String) (hx : x.data.contains '@' = true)
    (hy : y.data.contains '@' = false) : x ≠ y := by
  intro he
  rw [he, hy] at hx
  cases hx

theorem dlookup_append_not_mem (l1 l2 : List (String × Val)) (q : String)
    (h : ∀ kv ∈ l1, kv.1 ≠ q) : dlookup (l1 ++ l2) q = dlookup l2 q := by
  induction l1 with
  | nil => rfl
  | cons kv rest ih =>
    obtain ⟨k, v⟩ := kv
    simp only [List.cons_append, dlookup]
    rw [if_neg (h (k, v) (List.mem_cons_self _ _))]
    exact ih fun x hx => h x (List.mem_cons_of_mem _ hx)

theorem dinsert_ne_nil (d : List (String × Val)) (k : String) (v : Val) :
    dinsert d k v ≠ [] := by
  cases d with
  | nil => simp [dinsert]
  | cons kv rest =>
    obtain ⟨k2, w⟩ := kv
    simp only [dinsert]
    split <;> simp

theorem dinsertAll_ne_nil_of_ne : ∀ (l d : List (String × Val)), d ≠ [] →
    dinsertAll d l ≠ []
  | [], d, hd => hd
  | (k, v) :: rest, d, _ => by
    simp only [dinsertAll]
    exact dinsertAll_ne_nil_of_ne rest _ (dinsert_ne_nil d k v)

theorem dinsertAll_nil_ne : ∀ l : List (String × Val), l ≠ [] → dinsertAll [] l ≠ []
  | [], h => absurd rfl h
  | (k, v) :: rest, _ => by
    simp only [dinsertAll]
    exact dinsertAll_ne_nil_of_ne rest _ (dinsert_ne_nil [] k v)

theorem dinsertAll_count (a : String) :
    ∀ (l d : List (String × Val)),
      (∀ kv ∈ l, ∀ old : Val, dlookup d kv.1 = some old → isScalar old = true) →
      List.Pairwise ppaR l →
      markerCountE a (dinsertAll d l) = markerCountE a d + markerCountE a l
  | [], d, _, _ => by simp [dinsertAll, markerCountE]
  | kv :: rest, d, hd, hp => by
    obtain ⟨k, v⟩ := kv
    simp only [dinsertAll]
    obtain ⟨hhead, htail⟩ := List.pairwise_cons.mp hp
    have hstep : markerCountE a (dinsert d k v) = markerCountE a d + markerCount a v := by
      rcases hl : dlookup d k with _ | old
      · exact markerCountE_dinsert_none a d k v hl
      · have hsc := hd (k, v) (List.mem_cons_self _ _) old hl
        have h2 := markerCountE_dinsert_some a d k v old hl
        rw [markerCount_scalar a old hsc] at h2
        omega
    have hd2 : ∀ kv2 ∈ rest, ∀ old2 : Val,
        dlookup (dinsert d k v) kv2.1 = some old2 → isScalar old2 = true := by
      intro kv2 hkv2 old2 hl2
      by_cases hk : k = kv2.1
      · rw [← hk, dlookup_dinsert_self] at hl2
        injection hl2 with h2
        rw [← h2]
        exact (hhead kv2 hkv2 hk).2
      · rw [dlookup_dinsert_ne d k kv2.1 v hk] at hl2
        exact hd kv2 (List.mem_cons_of_mem _ hkv2) old2 hl2
    rw [dinsertAll_count a rest (dinsert d k v) hd2 htail, hstep]
    simp only [markerCountE]
    ring

theorem dinsertAll_lookup_free (q : String) (hq : q.data.contains '@' = false) :
    ∀ (l d : List (String × Val)), List.Pairwise ppaR l → dlookup d q = none →
      dlookup (dinsertAll d l) q = dlookup l q
  | [], d, _, hd => by simp [dinsertAll, dlookup, hd]
  | kv :: rest, d, hp, hd => by
    obtain ⟨k, v⟩ := kv
    simp only [dinsertAll, dlookup]
    by_cases hk : k = q
    · have hnm : q ∉ rest.map Prod.fst := by
        have h2 := pairwise_head_ne (k, v) rest hp (by rw [hk]; exact hq)
        rw [hk] at h2
        exact h2
      rw [if_pos hk, dinsertAll_lookup_not_mem rest (dinsert d k v) q hnm, ← hk,
        dlookup_dinsert_self]
    · rw [if_neg hk]
      exact dinsertAll_lookup_free q hq rest (dinsert d k v) (List.pairwise_cons.mp hp).2
        (by rw [dlookup_dinsert_ne d k q v hk]; exact hd)

theorem dlookup_dremove_self_of_nodup (es : List (String × Val)) (k : String)
    (hnd : (es.map Prod.fst).Nodup) : dlookup (dremove es k) k = none := by
  induction es with
  | nil => rfl
  | cons kv rest ih =>
    obtain ⟨k2, v⟩ := kv
    simp only [List.map_cons, List.nodup_cons] at hnd
    simp only [dremove]
    split
    · rename_i he
      rw [dlookup_eq_none_iff, ← he]
      exact hnd.1
    · rename_i he
      simp only [dlookup]
      rw [if_neg he]
      exact ih hnd.2

theorem single_text_entry (out : List (String × Val)) (w : Val)
    (hlen : out.length = 1) (hl : dlookup out "#text" = some w) :
    out = [("#text", w)] := by
  cases out with
  | nil => simp at hlen
  | cons kv rest =>
    cases rest with
    | cons x xs => simp at hlen
    | nil =>
      obtain ⟨k, v⟩ := kv
      simp only [dlookup] at hl
      split at hl
      · rename_i he
        injection hl with hv
        rw [he, hv]
      · simp [dlookup] at hl

theorem attribKey_contains (pk k : String) :
    (attribKey pk k).data.contains '@' = true := by
  rw [containsChar_iff]
  simp [attribKey, strMk_data]

theorem isScalar_of_isStr (v : Val) (h : isStrVal v = true) : isScalar v = true := by
  cases v <;> simp_all [isStrVal, isScalar]

theorem ppa_str_id (q t : String) : (post_parse_attr false q (.str t)).1 = .str t := rfl

theorem marker_top_transfer (es oe1 : List (String × Val)) (hwf : wfEntries es = true)
    (h : dlookup oe1 "__xmlns__" =
      (dlookup es "__xmlns__").map (fun w => (post_parse_attr false "__xmlns__" w).1)) :
    dlookup oe1 "__xmlns__" = dlookup es "__xmlns__" := by
  rcases he : dlookup es "__xmlns__" with _ | w
  · rw [he] at h
    simpa using h
  · rw [he] at h
    have hstr := (wfEntries_dlookup es "__xmlns__" w hwf he).2.2 rfl
    cases w with
    | str t =>
      simp only [Option.map_some'] at h
      rw [ppa_str_id] at h
      exact h
    | int n => simp [isStrVal] at hstr
    | float q2 => simp [isStrVal] at hstr
    | pynone => simp [isStrVal] at hstr
    | dict es2 => simp [isStrVal] at hstr
    | list xs => simp [isStrVal] at hstr

theorem ppaOps_own_snd (pk : String) : ∀ es : List (String × Val),
    (ppaOps true pk es).2 = []
  | [] => rfl
  | (k, v) :: rest => by
    simp only [ppaOps]
    by_cases hat : pyStartsWith k "@" = true
    · simp only [hat, if_true]
      exact ppaOps_own_snd pk rest
    · simp only [hat, Bool.false_eq_true, if_false]
      exact ppaOps_own_snd pk rest

theorem ppa_own_snd (pk : String) (v : Val) : (post_parse_attr true pk v).2 = [] := by
  cases v with
  | dict es => exact ppaOps_own_snd pk es
  | list xs => rfl
  | str t => rfl
  | int n => rfl
  | float q => rfl
  | pynone => rfl

theorem ppaOps_cons_attr_own (pk k : String) (v : Val) (rest : List (String × Val))
    (hat : pyStartsWith k "@" = true) :
    ppaOps true pk ((k, v) :: rest) =
      ((attribKey pk k, v) :: (ppaOps true pk rest).1, (ppaOps true pk rest).2) := by
  simp [ppaOps, hat]

theorem ppaOps_cons_attr_out (pk k : String) (v : Val) (rest : List (String × Val))
    (hat : pyStartsWith k "@" = true) :
    ppaOps false pk ((k, v) :: rest) =
      ((ppaOps false pk rest).1, (attribKey pk k, v) :: (ppaOps false pk rest).2) := by
  simp [ppaOps, hat]

theorem ppaOps_cons_elem (own : Bool) (pk k : String) (v : Val)
    (rest : List (String × Val)) (hat : pyStartsWith k "@" = false) :
    ppaOps own pk ((k, v) :: rest) =
      ((post_parse_attr false k v).2 ++ (k, (post_parse_attr false k v).1) ::
        (ppaOps own pk rest).1, (ppaOps own pk rest).2) := by
  simp [ppaOps, hat]

/-! The reshaping pass preserves the sentinel census of wellformed, rename
safe values: attribute moves create only scalar entries under keys holding
an at sign, replaying them overwrites only such entries, and the text
rename inserts at a key the dict does not hold. -/
mutual

theorem ppa_val (a : String) :
    ∀ (v : Val) (own : Bool) (pk : String), wfVal v = true → renameSafe pk v = true →
      pk.data.contains '@' = false → (pk ≠ "__xmlns__" ∨ isScalar v = true) →
      markerCount a (post_parse_attr own pk v).1 +
        markerCountE a (post_parse_attr own pk v).2 = markerCount a v ∧
      (∀ kv ∈ (post_parse_attr own pk v).2,
        kv.1.data.contains '@' = true ∧ isScalar kv.2 = true)
  | .str t, own, pk, _, _, _, _ =>
    ⟨rfl, fun kv hkv => absurd hkv (List.not_mem_nil kv)⟩
  | .int n, own, pk, _, _, _, _ =>
    ⟨rfl, fun kv hkv => absurd hkv (List.not_mem_nil kv)⟩
  | .float q, own, pk, _, _, _, _ =>
    ⟨rfl, fun kv hkv => absurd hkv (List.not_mem_nil kv)⟩
  | .pynone, own, pk, _, _, _, _ =>
    ⟨rfl, fun kv hkv => absurd hkv (List.not_mem_nil kv)⟩
  | .list xs, own, pk, hwf, hrs, hpk, hpkm => by
    have hpkm2 : pk ≠ "__xmlns__" := by
      rcases hpkm with h | h
      · exact h
      · simp [isScalar] at h
    have hcl := ppa_list a xs pk (by simpa [wfVal] using hwf)
      (by simpa [renameSafe] using hrs) hpk hpkm2
    refine ⟨?_, fun kv hkv => absurd hkv (List.not_mem_nil kv)⟩
    show markerCount a (.list (ppaList pk xs)) + markerCountE a [] = markerCount a (.list xs)
    simp only [markerCount, markerCountE]
    omega
  | .dict es, own, pk, hwf, hrs, hpk, hpkm => by
    have hpkm2 : pk ≠ "__xmlns__" := by
      rcases hpkm with h | h
      · exact h
      · simp [isScalar] at h
    have hw : wfEntries es = true ∧ (es.map Prod.fst).Nodup := by
      simpa [wfVal, Bool.and_eq_true] using hwf
    have hrs2 : ((dlookup es "#text").isNone || (dlookup es pk).isNone) = true ∧
        renameSafeE es = true := by
      simpa [renameSafe, Bool.and_eq_true] using hrs
    obtain ⟨hcnt, hpair, hclass, hlk, hops2⟩ := ppa_entries a es own pk hw.1 hw.2 hrs2.2
    have hdfresh : ∀ kv ∈ (ppaOps own pk es).1, ∀ old : Val,
        dlookup ([] : List (String × Val)) kv.1 = some old → isScalar old = true := by
      intro kv _ old hold
      simp [dlookup] at hold
    have hcount_out : markerCountE a (dinsertAll [] (ppaOps own pk es).1) =
        markerCountE a (ppaOps own pk es).1 := by
      rw [dinsertAll_count a (ppaOps own pk es).1 [] hdfresh hpair]
      simp [markerCountE]
    have hlk_out : ∀ q : String, q.data.contains '@' = false →
        dlookup (dinsertAll [] (ppaOps own pk es).1) q = dlookup (ppaOps own pk es).1 q :=
      fun q hq => dinsertAll_lookup_free q hq (ppaOps own pk es).1 [] hpair rfl
    have heq : post_parse_attr own pk (.dict es) =
        (ppaFinish pk (dinsertAll [] (ppaOps own pk es).1), (ppaOps own pk es).2) := rfl
    rw [heq]
    refine ⟨?_, fun kv hkv => hops2 kv hkv⟩
    show markerCount a (ppaFinish pk (dinsertAll [] (ppaOps own pk es).1)) +
        markerCountE a (ppaOps own pk es).2 = markerCount a (.dict es)
    have hmv : markerCount a (.dict es) =
        (if dlookup es "__xmlns__" = some (.str a) then 1 else 0) + markerCountE a es := rfl
    have htop : dlookup (dinsertAll [] (ppaOps own pk es).1) "__xmlns__" =
        dlookup es "__xmlns__" := by
      apply marker_top_transfer es _ hw.1
      rw [hlk_out "__xmlns__" (by decide)]
      exact hlk "__xmlns__" (by decide)
    unfold ppaFinish
    by_cases hlen0 : (dinsertAll [] (ppaOps own pk es).1).length = 0
    · rw [if_pos hlen0]
      have hnil : (ppaOps own pk es).1 = [] := by
        by_contra hne
        exact dinsertAll_nil_ne _ hne (List.length_eq_zero.mp hlen0)
      have hesx : dlookup es "__xmlns__" = none := by
        have h0 := hlk "__xmlns__" (by decide)
        rw [hnil] at h0
        cases hx : dlookup es "__xmlns__" with
        | none => rfl
        | some w =>
          rw [hx] at h0
          simp [dlookup] at h0
      rw [hmv, hesx, if_neg (fun h => Option.noConfusion h)]
      have hc0 : markerCountE a (ppaOps own pk es).1 = 0 := by
        rw [hnil]
        rfl
      have h1 : markerCount a (Val.str "") = 0 := rfl
      omega
    · rw [if_neg hlen0]
      rcases hsh : dlookup (dinsertAll [] (ppaOps own pk es).1) "#text" with _ | w
      · simp only [hsh]
        have hL : markerCount a (.dict (dinsertAll [] (ppaOps own pk es).1)) =
            (if dlookup es "__xmlns__" = some (.str a) then 1 else 0) +
              markerCountE a (ppaOps own pk es).1 := by
          simp only [markerCount, htop, hcount_out]
        rw [hL, hmv]
        omega
      · simp only [hsh]
        have h0 : (some w : Option Val) =
            (dlookup es "#text").map (fun v0 => (post_parse_attr false "#text" v0).1) := by
          rw [← hsh, hlk_out "#text" (by decide)]
          exact hlk "#text" (by decide)
        have hes_text : ∃ w0, dlookup es "#text" = some w0 := by
          cases hx : dlookup es "#text" with
          | none =>
            rw [hx] at h0
            simp at h0
          | some w0 => exact ⟨w0, rfl⟩
        obtain ⟨w0, hw0⟩ := hes_text
        by_cases hlen1 : (dinsertAll [] (ppaOps own pk es).1).length = 1
        · rw [if_pos hlen1]
          have hout1 := single_text_entry _ w hlen1 hsh
          have hesx : dlookup es "__xmlns__" = none := by
            have h2 := htop
            rw [hout1] at h2
            simpa [dlookup] using h2.symm
          have hcw : markerCountE a (ppaOps own pk es).1 = markerCount a w := by
            rw [← hcount_out, hout1]
            simp [markerCountE]
          rw [hmv, hesx, if_neg (fun h => Option.noConfusion h)]
          omega
        · rw [if_neg hlen1]
          have hndout : ((dinsertAll [] (ppaOps own pk es).1).map Prod.fst).Nodup :=
            dinsertAll_keys_nodup _ [] (by simp)
          have hrm : dlookup (dremove (dinsertAll [] (ppaOps own pk es).1) "#text") pk
              = none := by
            by_cases hpt : pk = "#text"
            · subst hpt
              exact dlookup_dremove_self_of_nodup _ _ hndout
            · rw [dlookup_dremove_ne _ _ _ (fun he => hpt he.symm)]
              rw [hlk_out pk hpk, hlk pk hpk]
              have hespk : dlookup es pk = none := by
                have h3 := hrs2.1
                rw [hw0] at h3
                simp only [Option.isNone_some, Bool.false_or] at h3
                exact Option.isNone_iff_eq_none.mp h3
              rw [hespk]
              rfl
          have hrem := markerCountE_dremove a (dinsertAll [] (ppaOps own pk es).1)
            "#text" w hsh
          have hins := markerCountE_dinsert_none a
            (dremove (dinsertAll [] (ppaOps own pk es).1) "#text") pk w hrm
          have htop2 : dlookup (dinsert
              (dremove (dinsertAll [] (ppaOps own pk es).1) "#text") pk w) "__xmlns__"
              = dlookup es "__xmlns__" := by
            rw [dlookup_dinsert_ne _ _ _ _ hpkm2,
              dlookup_dremove_ne _ _ _ (by decide : ("#text" : String) ≠ "__xmlns__"),
              htop]
          have hL : markerCount a (.dict (dinsert
              (dremove (dinsertAll [] (ppaOps own pk es).1) "#text") pk w)) =
              (if dlookup es "__xmlns__" = some (.str a) then 1 else 0) +
                markerCountE a (dinsert
                  (dremove (dinsertAll [] (ppaOps own pk es).1) "#text") pk w) := by
            simp only [markerCount, htop2]
          rw [hL, hmv, hins]
          omega

theorem ppa_entries (a : String) :
    ∀ (es : List (String × Val)) (own : Bool) (pk : String), wfEntries es = true →
      (es.map Prod.fst).Nodup → renameSafeE es = true →
      markerCountE a (ppaOps own pk es).1 + markerCountE a (ppaOps own pk es).2 =
        markerCountE a es ∧
      List.Pairwise ppaR (ppaOps own pk es).1 ∧
      (∀ kv ∈ (ppaOps own pk es).1,
        kv.1.data.contains '@' = true ∨ kv.1 ∈ es.map Prod.fst) ∧
      (∀ q : String, q.data.contains '@' = false →
        dlookup (ppaOps own pk es).1 q =
          (dlookup es q).map (fun w => (post_parse_attr false q w).1)) ∧
      (∀ kv ∈ (ppaOps own pk es).2,
        kv.1.data.contains '@' = true ∧ isScalar kv.2 = true)
  | [], own, pk, _, _, _ =>
    ⟨rfl, List.Pairwise.nil, fun kv h => absurd h (List.not_mem_nil kv),
      fun q _ => rfl, fun kv h => absurd h (List.not_mem_nil kv)⟩
  | (k, v) :: rest, own, pk, hwf, hnd, hrs => by
    rw [wfEntries_cons_iff] at hwf
    obtain ⟨hc1, hc2, hvw, hwrest⟩ := hwf
    rw [renameSafeE_cons_iff] at hrs
    obtain ⟨hvr, hrrest⟩ := hrs
    simp only [List.map_cons, List.nodup_cons] at hnd
    obtain ⟨hknotin, hndrest⟩ := hnd
    obtain ⟨ihc, ihp, ihcl, ihlk, ih2⟩ := ppa_entries a rest own pk hwrest hndrest hrrest
    by_cases hat : pyStartsWith k "@" = true
    · have hscv : isScalar v = true := by
        rw [hat] at hc1
        simpa using hc1
      have hkc : k.data.contains '@' = true := by
        rw [pyStartsWith_iff] at hat
        rw [containsChar_iff]
        exact prefix_single_mem hat
      have hcv0 : markerCount a v = 0 := markerCount_scalar a v hscv
      cases own with
      | true =>
        rw [ppaOps_cons_attr_own pk k v rest hat]
        refine ⟨?_, ?_, ?_, ?_, ?_⟩
        · simp only [markerCountE, hcv0]
          omega
        · exact List.Pairwise.cons
            (fun y hy he => ⟨attribKey_contains pk k, hscv⟩) ihp
        · intro kv hkv
          rcases List.mem_cons.mp hkv with rfl | hkv2
          · exact Or.inl (attribKey_contains pk k)
          · rcases ihcl kv hkv2 with h | h
            · exact Or.inl h
            · exact Or.inr (List.mem_cons_of_mem _ h)
        · intro q hq
          simp only [dlookup]
          rw [if_neg (ne_of_contains_mismatch _ _ (attribKey_contains pk k) hq),
            ihlk q hq, if_neg (ne_of_contains_mismatch _ _ hkc hq)]
        · exact ih2
      | false =>
        rw [ppaOps_cons_attr_out pk k v rest hat]
        refine ⟨?_, ihp, ?_, ?_, ?_⟩
        · simp only [markerCountE, hcv0]
          omega
        · intro kv hkv
          rcases ihcl kv hkv with h | h
          · exact Or.inl h
          · exact Or.inr (List.mem_cons_of_mem _ h)
        · intro q hq
          rw [ihlk q hq]
          simp only [dlookup]
          rw [if_neg (ne_of_contains_mismatch _ _ hkc hq)]
        · intro kv hkv
          rcases List.mem_cons.mp hkv with rfl | hkv2
          · exact ⟨attribKey_contains pk k, hscv⟩
          · exact ih2 kv hkv2
    · have hat2 : pyStartsWith k "@" = false := by
        rw [Bool.eq_false_iff]
        exact hat
      have hkfree : k.data.contains '@' = false := by
        rw [hat2] at hc1
        simp only [Bool.false_eq_true, if_false, Bool.not_eq_true'] at hc1
        exact hc1
      have hpkmk : k ≠ "__xmlns__" ∨ isScalar v = true := by
        by_cases hk : k = "__xmlns__"
        · right
          apply isScalar_of_isStr
          rw [hk] at hc2
          simpa using hc2
        · exact Or.inl hk
      have hcv := ppa_val a v false k hvw hvr hkfree hpkmk
      rw [ppaOps_cons_elem own pk k v rest hat2]
      refine ⟨?_, ?_, ?_, ?_, ih2⟩
      · rw [markerCountE_append]
        simp only [markerCountE]
        have h1 := hcv.1
        omega
      · rw [List.pairwise_append]
        refine ⟨pairwise_of_left _ hcv.2, ?_, ?_⟩
        · refine List.Pairwise.cons ?_ ihp
          intro y hy he
          rcases ihcl y hy with h | h
          · exact absurd h (by rw [← he, hkfree]; exact Bool.false_ne_true)
          · exact absurd h (by rw [← he]; exact hknotin)
        · intro x hx y hy he
          exact hcv.2 x hx
      · intro kv hkv
        rcases List.mem_append.mp hkv with h | h
        · exact Or.inl (hcv.2 kv h).1
        · rcases List.mem_cons.mp h with rfl | h2
          · exact Or.inr (List.mem_cons_self _ _)
          · rcases ihcl kv h2 with h3 | h3
            · exact Or.inl h3
            · exact Or.inr (List.mem_cons_of_mem _ h3)
      · intro q hq
        rw [dlookup_append_not_mem _ _ q
          (fun kv hkv => ne_of_contains_mismatch _ _ (hcv.2 kv hkv).1 hq)]
        simp only [dlookup]
        by_cases hkq : k = q
        · rw [if_pos hkq, if_pos hkq]
          subst hkq
          rfl
        · rw [if_neg hkq, if_neg hkq]
          exact ihlk q hq

theorem ppa_list (a : String) :
    ∀ (xs : List Val) (pk : String), wfVList xs = true → renameSafeL pk xs = true →
      pk.data.contains '@' = false → pk ≠ "__xmlns__" →
      markerCountL a (ppaList pk xs) = markerCountL a xs
  | [], pk, _, _, _, _ => rfl
  | x :: rest, pk, hwf, hrs, hpk, hpkm => by
    simp only [wfVList, Bool.and_eq_true] at hwf
    simp only [renameSafeL, Bool.and_eq_true] at hrs
    have hx := ppa_val a x true pk hwf.1 hrs.1 hpk (Or.inl hpkm)
    simp only [ppaList, markerCountL]
    have h2 : markerCountE a (post_parse_attr true pk x).2 = 0 := by
      rw [ppa_own_snd]
      rfl
    have h1 := hx.1
    rw [ppa_list a rest pk hwf.2 hrs.2 hpk hpkm]
    omega

end

/-! ### The string value pipeline of post_parse_node -/

theorem pp_str_value (path : List String) (key s : String) :
    (post_parse_node path key (.str s)).2 = ppScalarPipe (.str s) := by
  simp only [post_parse_node, ppScalarPipe]
  by_cases hat : pyStartsWith key "@" = true
  · simp only [hat, if_true]
  · simp only [hat, Bool.false_eq_true, if_false]
    rcases hs : splitSp key.data with _ | ⟨x, _ | ⟨y, _ | ⟨z, zs⟩⟩⟩ <;> simp only [hs]

/-! ### parse_xml control flow

Model of parse_xml from utils/xml.py: the file check raises ValueError
before the try block; any error inside the try block, reading or parsing,
is caught, logged with the path and the message, and the function falls
through returning None. isFile stands for os.path.isfile, attempt for the
outcome of reading and converting the document. -/

inductive PyExc where
  | valueError (msg : String)
  | lookupError (msg : String)
  | documentInvalid (msg : String)
deriving DecidableEq

def parse_xml_model (isFile : Bool) (path : String) (attempt : Except String Val) :
    Except PyExc (Option Val) × List String :=
  if isFile = false then (.error (.valueError (path ++ " is not a file")), [])
  else
    match attempt with
    | .ok v => (.ok (some v), [])
    | .error e => (.ok none, ["Error parsing XML " ++ path ++ " : " ++ e])

/-! ### validate_xml: catalog resolution and the scoped environment -/

def setEnv (env : String → Option String) (k : String) (v : Option String) :
    String → Option String :=
  fun q => if q = k then v else env q

/-- Modelled from the spec: modified_dict from clairmeta.utils.sys, a
module not under src. A context manager that sets the key to the value for
the scope of the body and restores the prior binding, present or absent,
on every exit path. -/
def modified_dict_run (env : String → Option String) (k v : String)
    (body : (String → Option String) → Except PyExc Unit) :
    Except PyExc Unit × (String → Option String) :=
  (body (setEnv env k (some v)), setEnv (setEnv env k (some v)) k (env k))

/-- validate_xml from utils/xml.py: the file check, the catalog filter by
exact publicId, the zero and multiple match failures, and the validation
run under the scoped XML_CATALOG_FILES override. conform uri stands for
schema.assertValid succeeding with the schema at uri. -/
def validate_xml_model (isFile : Bool) (path cpath : String)
    (catalog : List (String × String)) (xsdId : String)
    (conform : String → Bool) (env : String → Option String) :
    Except PyExc Unit × (String → Option String) :=
  if isFile = false then (.error (.valueError (path ++ " is not a file")), env)
  else if (catalog.filter (fun e => e.1 == xsdId)).length = 0 then
    (.error (.lookupError "XSD schema not found"), env)
  else if 1 < (catalog.filter (fun e => e.1 == xsdId)).length then
    (.error (.lookupError "Multiple XSD schema found"), env)
  else
    match catalog.filter (fun e => e.1 == xsdId) with
    | (_, uri) :: _ =>
      modified_dict_run env "XML_CATALOG_FILES" cpath
        (fun _ => if conform uri = true then .ok () else .error (.documentInvalid path))
    | [] => (.error (.lookupError "XSD schema not found"), env)

theorem setEnv_restore (env : String → Option String) (k : String) (v : Option String) :
    setEnv (setEnv env k v) k (env k) = env := by
  funext q
  by_cases hq : q = k
  · simp [setEnv, hq]
  · simp [setEnv, hq]

/-! ### canonicalize_xml post processing -/

def xmlnsPat : List Char := " xmlns=\"\"".data

/-- Line 299 of utils/xml.py: re.sub removes every occurrence of the
pattern from the C14N bytes, wherever it stands. -/
def canonicalize_xml_sub (s : List Char) : List Char := removeOcc xmlnsPat s

/-! A miniature of the C14N serialization feeding that substitution: an
element tree without attributes, text serialized with the C14N character
escapes, elements as matching tag pairs. -/

inductive XNode where
  | elem (tag : String) (kids : List XNode)
  | text (s : String)

def escC14N (c : Char) : List Char :=
  if c = '&' then "&amp;".data
  else if c = '<' then "&lt;".data
  else if c = '>' then "&gt;".data
  else if c = '\r' then "&#xD;".data
  else [c]

mutual

def serNode : XNode → List Char
  | .elem t kids => '<' :: t.data ++ '>' :: serForest kids ++ '<' :: '/' :: t.data ++ ['>']
  | .text s => (s.data.map escC14N).join

def serForest : List XNode → List Char
  | [] => []
  | n :: rest => serNode n ++ serForest rest

end

/-- canonicalize_xml on a document whose C14N serialization is serNode:
the serialized bytes with every occurrence of the pattern removed. -/
def canonBytes (d : XNode) : List Char := canonicalize_xml_sub (serNode d)

/-! ### Assembly: the sentinel census of the whole parse_xml pipeline -/

theorem xmltodict_marker_one (a : String) (fl : List String) (doc : XTree)
    (ha : goodAlias a = true) (hwf : wfTree doc = true)
    (huniq : uniqueNSRoot a doc = true) :
    markerCount a (xmltodict_parse fl doc) = 1 := by
  have hwk : wfKey doc.rawKey = true := by
    cases doc with
    | mk k2 a2 c2 t2 => exact (wfTree_parts k2 a2 c2 t2 hwf).1
  have hone : markerCount a (ppv fl [] doc).2 = 1 :=
    marker_one_tree a ha fl doc [] hwf huniq rfl
  have hkeym : (post_parse_node [doc.rawKey] doc.rawKey
      (elemValue fl [doc.rawKey] doc)).1 ≠ "__xmlns__" := by
    rw [pp_key_eq_localKey [doc.rawKey] doc.rawKey (elemValue fl [doc.rawKey] doc) hwk]
    exact (goodName_str_facts _ (localKey_good doc.rawKey hwk)).1
  have hlk : dlookup (push_data [doc.rawKey] none doc.rawKey
      (elemValue fl [doc.rawKey] doc) fl) "__xmlns__" = none := by
    rw [push_data_lookup [doc.rawKey] none doc.rawKey _ fl "__xmlns__" hkeym]
    rfl
  have h3 : markerCount a (post_parse_node [doc.rawKey] doc.rawKey
      (elemValue fl [doc.rawKey] doc)).2 = 1 := hone
  have hcnt : markerCountE a (push_data [doc.rawKey] none doc.rawKey
      (elemValue fl [doc.rawKey] doc) fl) = 1 := by
    rw [push_data_count a [doc.rawKey] none doc.rawKey _ fl, h3]
    rfl
  show markerCount a (.dict (push_data [doc.rawKey] none doc.rawKey
      (elemValue fl [doc.rawKey] doc) fl)) = 1
  simp only [markerCount, hlk, hcnt]
  rw [if_neg (fun h => Option.noConfusion h)]

theorem xmltodict_wf (fl : List String) (doc : XTree)
    (hwf : wfTree doc = true) (hts : textSafeTree doc = true) :
    wfVal (xmltodict_parse fl doc) = true ∧
    renameSafe "" (xmltodict_parse fl doc) = true := by
  have hwk : wfKey doc.rawKey = true := by
    cases doc with
    | mk k2 a2 c2 t2 => exact (wfTree_parts k2 a2 c2 t2 hwf).1
  have hppk := pp_key_eq_localKey [doc.rawKey] doc.rawKey
    (elemValue fl [doc.rawKey] doc) hwk
  have hgn := goodName_str_facts _ (localKey_good doc.rawKey hwk)
  have hcv := conv_wf_tree fl doc [] hwf hts
  have hstep := push_data_wf [doc.rawKey] none doc.rawKey
    (elemValue fl [doc.rawKey] doc) fl
    (by rw [hppk]; exact hgn.2.2.1)
    (by rw [hppk]; exact hgn.2.2.2)
    (by rw [hppk]; exact hgn.1)
    hcv.1
    (by rw [hppk]; exact hcv.2)
    rfl List.nodup_nil rfl
  have hlt : dlookup (push_data [doc.rawKey] none doc.rawKey
      (elemValue fl [doc.rawKey] doc) fl) "#text" = none := by
    rw [push_data_lookup [doc.rawKey] none doc.rawKey _ fl "#text"
      (by rw [hppk]; exact hgn.2.1)]
    rfl
  exact ⟨wfVal_dict_intro _ hstep.1 hstep.2.1,
    renameSafe_dict_intro "" _ (Or.inl hlt) hstep.2.2⟩

/-! ### The image of the namespace root in the output mapping

The key spine leading from an element down to the first element carrying
the namespace alias, and the relation tying that spine to the node of the
output value that carries the sentinel: following the spine key by key,
stepping into list members where repeated keys or the force list built
one, reaches a mapping whose own entries hold the sentinel and below
which no sentinel occurs. -/

mutual

def nsSpine (a : String) : XTree → List String
  | .mk k _ cs _ => if pyStartsWith k (a ++ nsSep) then [] else nsSpineF a cs

def nsSpineF (a : String) : List XTree → List String
  | [] => []
  | c :: rest => if treeHasNS a c then localKey c.rawKey :: nsSpine a c else nsSpineF a rest

end

inductive NSImage (a : String) : List String → Val → Prop where
  | root (es : List (String × Val)) (hl : dlookup es "__xmlns__" = some (.str a))
      (hc : markerCountE a es = 0) : NSImage a [] (.dict es)
  | child (k : String) (ks : List String) (es : List (String × Val)) (v : Val)
      (hlk : dlookup es k = some v) (h : NSImage a ks v) : NSImage a (k :: ks) (.dict es)
  | member (ks : List String) (xs : List Val) (v : Val) (hv : v ∈ xs)
      (h : NSImage a ks v) : NSImage a ks (.list xs)

theorem NSImage_not_scalar (a : String) (ks : List String) (v : Val)
    (h : NSImage a ks v) : isScalar v = false := by
  cases h with
  | root es hl hc => rfl
  | child k ks2 es v2 hlk h2 => rfl
  | member ks2 xs v2 hv h2 => rfl

theorem NSImage_list_append (a : String) (ks : List String) (xs ys : List Val)
    (h : NSImage a ks (.list xs)) : NSImage a ks (.list (xs ++ ys)) := by
  cases h with
  | member _ _ v hv h2 => exact NSImage.member _ _ _ (List.mem_append_left ys hv) h2

theorem push_data_self_NSImage (a : String) (ks : List String) (path : List String)
    (item : Option (List (String × Val))) (key : String) (data : Val) (fl : List String)
    (hI : NSImage a ks (post_parse_node path key data).2) :
    ∃ w, dlookup (push_data path item key data fl) (post_parse_node path key data).1 =
      some w ∧ NSImage a ks w := by
  unfold push_data
  rcases hl : dlookup (item.getD []) (post_parse_node path key data).1 with _ | old
  · simp only [hl]
    by_cases hf : fl.contains (post_parse_node path key data).1
    · simp only [hf, if_true]
      exact ⟨.list [(post_parse_node path key data).2], dlookup_dinsert_self _ _ _,
        NSImage.member _ _ _ (List.mem_cons_self _ _) hI⟩
    · simp only [hf, Bool.false_eq_true, if_false]
      exact ⟨(post_parse_node path key data).2, dlookup_dinsert_self _ _ _, hI⟩
  · cases old with
    | list xs =>
      simp only [hl]
      exact ⟨.list (xs ++ [(post_parse_node path key data).2]), dlookup_dinsert_self _ _ _,
        NSImage.member _ _ _ (List.mem_append_right xs (List.mem_cons_self _ _)) hI⟩
    | str t =>
      simp only [hl]
      exact ⟨.list [.str t, (post_parse_node path key data).2], dlookup_dinsert_self _ _ _,
        NSImage.member _ _ _ (List.mem_cons_of_mem _ (List.mem_cons_self _ _)) hI⟩
    | int n =>
      simp only [hl]
      exact ⟨.list [.int n, (post_parse_node path key data).2], dlookup_dinsert_self _ _ _,
        NSImage.member _ _ _ (List.mem_cons_of_mem _ (List.mem_cons_self _ _)) hI⟩
    | float q =>
      simp only [hl]
      exact ⟨.list [.float q, (post_parse_node path key data).2], dlookup_dinsert_self _ _ _,
        NSImage.member _ _ _ (List.mem_cons_of_mem _ (List.mem_cons_self _ _)) hI⟩
    | pynone =>
      simp only [hl]
      exact ⟨.list [.pynone, (post_parse_node path key data).2], dlookup_dinsert_self _ _ _,
        NSImage.member _ _ _ (List.mem_cons_of_mem _ (List.mem_cons_self _ _)) hI⟩
    | dict es2 =>
      simp only [hl]
      exact ⟨.list [.dict es2, (post_parse_node path key data).2], dlookup_dinsert_self _ _ _,
        NSImage.member _ _ _ (List.mem_cons_of_mem _ (List.mem_cons_self _ _)) hI⟩

theorem push_data_preserve_NSImage (a : String) (ks : List String) (path : List String)
    (item : Option (List (String × Val))) (key : String) (data : Val) (fl : List String)
    (k2 : String) (w : Val) (hw : dlookup (item.getD []) k2 = some w)
    (hI : NSImage a ks w) :
    ∃ w2, dlookup (push_data path item key data fl) k2 = some w2 ∧ NSImage a ks w2 := by
  by_cases hk : (post_parse_node path key data).1 = k2
  · subst hk
    unfold push_data
    cases w with
    | list xs =>
      simp only [hw]
      exact ⟨.list (xs ++ [(post_parse_node path key data).2]), dlookup_dinsert_self _ _ _,
        NSImage_list_append a ks xs _ hI⟩
    | str t =>
      simp only [hw]
      exact ⟨.list [.str t, (post_parse_node path key data).2], dlookup_dinsert_self _ _ _,
        NSImage.member _ _ _ (List.mem_cons_self _ _) hI⟩
    | int n =>
      simp only [hw]
      exact ⟨.list [.int n, (post_parse_node path key data).2], dlookup_dinsert_self _ _ _,
        NSImage.member _ _ _ (List.mem_cons_self _ _) hI⟩
    | float q =>
      simp only [hw]
      exact ⟨.list [.float q, (post_parse_node path key data).2], dlookup_dinsert_self _ _ _,
        NSImage.member _ _ _ (List.mem_cons_self _ _) hI⟩
    | pynone =>
      simp only [hw]
      exact ⟨.list [.pynone, (post_parse_node path key data).2], dlookup_dinsert_self _ _ _,
        NSImage.member _ _ _ (List.mem_cons_self _ _) hI⟩
    | dict es2 =>
      simp only [hw]
      exact ⟨.list [.dict es2, (post_parse_node path key data).2], dlookup_dinsert_self _ _ _,
        NSImage.member _ _ _ (List.mem_cons_self _ _) hI⟩
  · rw [push_data_lookup path item key data fl k2 hk]
    exact ⟨w, hw, hI⟩

theorem pushAll_preserve_NSImage (a : String) (ks : List String)
    (path : List String) (fl : List String) :
    ∀ (pairs : List (String × Val)) (item : Option (List (String × Val)))
      (k2 : String) (w : Val),
      dlookup (item.getD []) k2 = some w → NSImage a ks w →
      ∃ w2, dlookup ((pushAll path fl pairs item).getD []) k2 = some w2 ∧ NSImage a ks w2
  | [], item, k2, w, hw, hI => ⟨w, hw, hI⟩
  | (k3, v3) :: rest, item, k2, w, hw, hI => by
    simp only [pushAll]
    obtain ⟨w2, hw2, hI2⟩ := push_data_preserve_NSImage a ks (path ++ [k3]) item k3 v3 fl
      k2 w hw hI
    exact pushAll_preserve_NSImage a ks path fl rest _ k2 w2 hw2 hI2

mutual

theorem nsSpine_good (a : String) :
    ∀ (t : XTree), wfTree t = true → ∀ k2 ∈ nsSpine a t, goodNameC k2.data = true
  | .mk k attrs cs tx, hwf, k2, hk2 => by
    obtain ⟨hkey, hf⟩ := wfTree_parts k attrs cs tx hwf
    simp only [nsSpine] at hk2
    by_cases hns : pyStartsWith k (a ++ nsSep) = true
    · rw [if_pos hns] at hk2
      exact absurd hk2 (List.not_mem_nil k2)
    · rw [if_neg hns] at hk2
      exact nsSpineF_good a cs hf k2 hk2

theorem nsSpineF_good (a : String) :
    ∀ (cs : List XTree), wfForest cs = true →
      ∀ k2 ∈ nsSpineF a cs, goodNameC k2.data = true
  | [], _, k2, hk2 => absurd hk2 (List.not_mem_nil k2)
  | c :: rest, hwf, k2, hk2 => by
    simp only [wfForest, Bool.and_eq_true] at hwf
    simp only [nsSpineF] at hk2
    by_cases hns : treeHasNS a c = true
    · rw [if_pos hns] at hk2
      rcases List.mem_cons.mp hk2 with rfl | hk3
      · have hwk : wfKey c.rawKey = true := by
          cases c with
          | mk k3 a3 c3 t3 => exact (wfTree_parts k3 a3 c3 t3 hwf.1).1
        exact localKey_good c.rawKey hwk
      · exact nsSpine_good a c hwf.1 k2 hk3
    · rw [if_neg hns] at hk2
      exact nsSpineF_good a rest hwf.2 k2 hk2

end

/-! The converted value of a uniquely namespace rooted element carries the
sentinel exactly at the end of the key spine. -/
mutual

theorem spine_conv (a : String) (ha : goodAlias a = true) (fl : List String) :
    ∀ (t : XTree) (p : List String), wfTree t = true → uniqueNSRoot a t = true →
      nsPrefCount a p = 0 → NSImage a (nsSpine a t) (ppv fl p t).2
  | .mk k attrs cs tx, p, hwf, huniq, hp => by
    by_cases hns : pyStartsWith k (a ++ nsSep) = true
    · have hforest : forestHasNS a cs = true := by
        have h2 : uniqueNSRoot a (.mk k attrs cs tx) = forestHasNS a cs := by
          simp only [uniqueNSRoot, if_pos hns]
        rw [← h2]
        exact huniq
      obtain ⟨es, heq, hlook, hcnt⟩ := root_marker_lemma a ha fl k attrs cs tx p hwf
        hns (forestHasNS_ne_nil a cs hforest) hp
      have hsp : nsSpine a (.mk k attrs cs tx) = [] := by
        simp only [nsSpine, if_pos hns]
      rw [hsp, heq]
      exact NSImage.root es hlook hcnt
    · obtain ⟨hkey, hkidswf⟩ := wfTree_parts k attrs cs tx hwf
      have huniqF : uniqueNSForest a cs = true := by
        have h2 : uniqueNSRoot a (.mk k attrs cs tx) = uniqueNSForest a cs := by
          simp only [uniqueNSRoot, if_neg hns]
        rw [← h2]
        exact huniq
      have hp2 : nsPrefCount a (p ++ [k]) = 0 := by
        rw [nsPrefCount_append, nsPrefCount_single, if_neg hns, hp]
      obtain ⟨k2, ks, w, hsp, hlk2, hI, hgood⟩ := spine_forest a ha fl cs (p ++ [k])
        (init_attrs (p ++ [k]) attrs) hkidswf huniqF hp2
      obtain ⟨c0, rest0, rfl⟩ : ∃ c0 rest0, cs = c0 :: rest0 := by
        cases cs with
        | nil => exact absurd rfl (uniqueNSForest_ne_nil a [] huniqF)
        | cons c0 rest0 => exact ⟨c0, rest0, rfl⟩
      obtain ⟨d, hd⟩ := pushKids_isSome fl (p ++ [k]) c0 rest0 (init_attrs (p ++ [k]) attrs)
      rw [hd] at hlk2
      simp only [Option.getD_some] at hlk2
      have hfin : ∃ es1, elemValue fl (p ++ [k]) (.mk k attrs (c0 :: rest0) tx) = .dict es1 ∧
          ∃ w2, dlookup es1 k2 = some w2 ∧ NSImage a ks w2 := by
        unfold pushKids at hd
        rcases tx with _ | s
        · refine ⟨d, ?_, w, hlk2, hI⟩
          simp only [elemValue]
          rw [hd]
        · by_cases hs0 : s = ""
          · subst hs0
            refine ⟨d, ?_, w, hlk2, hI⟩
            simp only [elemValue]
            rw [hd]
            rfl
          · obtain ⟨w2, hw2, hI2⟩ := push_data_preserve_NSImage a ks (p ++ [k]) (some d)
              "#text" (.str s) fl k2 w hlk2 hI
            refine ⟨push_data (p ++ [k]) (some d) "#text" (.str s) fl, ?_, w2, hw2, hI2⟩
            simp only [elemValue]
            rw [hd]
            simp only [if_neg hs0]
      obtain ⟨es1, hev, w2, hw2, hI2⟩ := hfin
      have hspT : nsSpine a (.mk k attrs (c0 :: rest0) tx) = nsSpineF a (c0 :: rest0) := by
        simp only [nsSpine, if_neg hns]
      rw [hspT, hsp]
      have hppv : ppv fl p (.mk k attrs (c0 :: rest0) tx) =
          post_parse_node (p ++ [k]) k
            (elemValue fl (p ++ [k]) (.mk k attrs (c0 :: rest0) tx)) := rfl
      have hat := wfKey_not_attr k hkey
      have hk2x : ("__xmlns__" : String) ≠ k2 := fun he =>
        (goodName_str_facts k2 hgood).1 he.symm
      rcases wfKey_cases k hkey with ⟨l, hsK, _⟩ | ⟨ns, l, hsK, _, _⟩
      · rw [hppv, hev, pp_single_case (p ++ [k]) k _ l hat hsK, ppScalarPipe_dict]
        exact NSImage.child k2 ks es1 w2 hw2 hI2
      · rw [hppv, hev, pp_pair_dict_case (p ++ [k]) k ns l es1 hat hsK]
        by_cases hfound : List.countP
            (fun q => pyStartsWith q (String.mk ns ++ nsSep)) (p ++ [k]) = 1
        · rw [if_pos hfound]
          exact NSImage.child k2 ks _ w2
            (by rw [dlookup_dinsert_ne es1 _ _ _ hk2x]; exact hw2) hI2
        · rw [if_neg hfound]
          exact NSImage.child k2 ks es1 w2 hw2 hI2

theorem spine_forest (a : String) (ha : goodAlias a = true) (fl : List String) :
    ∀ (cs : List XTree) (p : List String) (item : Option (List (String × Val))),
      wfForest cs = true → uniqueNSForest a cs = true → nsPrefCount a p = 0 →
      ∃ k ks w, nsSpineF a cs = k :: ks ∧
        dlookup ((pushKids fl p cs item).getD []) k = some w ∧
        NSImage a ks w ∧ goodNameC k.data = true
  | [], p, item, _, huniq, _ => by cases huniq
  | c :: rest, p, item, hwf, huniq, hp => by
    simp only [wfForest, Bool.and_eq_true] at hwf
    have hwk : wfKey c.rawKey = true := by
      cases c with
      | mk k3 a3 c3 t3 => exact (wfTree_parts k3 a3 c3 t3 hwf.1).1
    rw [pushKids_cons]
    by_cases hch : treeHasNS a c = true
    · have huniq2 : uniqueNSRoot a c = true ∧ forestHasNS a rest = false := by
        have h2 : uniqueNSForest a (c :: rest) =
            (uniqueNSRoot a c && !forestHasNS a rest) := by
          simp only [uniqueNSForest, if_pos hch]
        rw [h2] at huniq
        simp only [Bool.and_eq_true, Bool.not_eq_eq_eq_not, Bool.not_true] at huniq
        exact huniq
      have himg : NSImage a (nsSpine a c) (ppv fl p c).2 :=
        spine_conv a ha fl c p hwf.1 huniq2.1 hp
      obtain ⟨w1, hw1, hI1⟩ := push_data_self_NSImage a (nsSpine a c) (p ++ [c.rawKey])
        item c.rawKey (elemValue fl (p ++ [c.rawKey]) c) fl himg
      rw [pp_key_eq_localKey (p ++ [c.rawKey]) c.rawKey
        (elemValue fl (p ++ [c.rawKey]) c) hwk] at hw1
      obtain ⟨w2, hw2, hI2⟩ := pushAll_preserve_NSImage a (nsSpine a c) p fl
        (kidPairs fl p rest)
        (some (push_data (p ++ [c.rawKey]) item c.rawKey
          (elemValue fl (p ++ [c.rawKey]) c) fl))
        (localKey c.rawKey) w1 hw1 hI1
      refine ⟨localKey c.rawKey, nsSpine a c, w2, ?_, hw2, hI2, localKey_good c.rawKey hwk⟩
      simp only [nsSpineF, if_pos hch]
    · have huniq2 : uniqueNSForest a rest = true := by
        have h2 : uniqueNSForest a (c :: rest) = uniqueNSForest a rest := by
          simp only [uniqueNSForest, if_neg hch]
        rw [← h2]
        exact huniq
      obtain ⟨k, ks, w, hsp, hlk2, hI, hgood⟩ := spine_forest a ha fl rest p
        (some (push_data (p ++ [c.rawKey]) item c.rawKey
          (elemValue fl (p ++ [c.rawKey]) c) fl)) hwf.2 huniq2 hp
      refine ⟨k, ks, w, ?_, hlk2, hI, hgood⟩
      rw [← hsp]
      simp only [nsSpineF, if_neg hch]

end

/-! The reshaping pass keeps a dict a dict when it holds an entry under a
plain key, and keeps that entry, recursively reshaped, under the same
key. -/
theorem ppa_dict_shape (own : Bool) (pk : String) (es : List (String × Val))
    (hwf : wfVal (.dict es) = true) (hrs : renameSafe pk (.dict es) = true)
    (hpk : pk.data.contains '@' = false)
    (q : String) (hq : q.data.contains '@' = false) (hqt : q ≠ "#text")
    (w : Val) (hlq : dlookup es q = some w) :
    ∃ es2, (post_parse_attr own pk (.dict es)).1 = .dict es2 ∧
      dlookup es2 q = some ((post_parse_attr false q w).1) := by
  have hw2 : wfEntries es = true ∧ (es.map Prod.fst).Nodup := by
    simpa [wfVal, Bool.and_eq_true] using hwf
  have hrs2 : ((dlookup es "#text").isNone || (dlookup es pk).isNone) = true ∧
      renameSafeE es = true := by
    simpa [renameSafe, Bool.and_eq_true] using hrs
  obtain ⟨hcnt, hpair, hclass, hlk, hops2⟩ := ppa_entries "" es own pk hw2.1 hw2.2 hrs2.2
  have hlk_out : ∀ q2 : String, q2.data.contains '@' = false →
      dlookup (dinsertAll [] (ppaOps own pk es).1) q2 = dlookup (ppaOps own pk es).1 q2 :=
    fun q2 hq2 => dinsertAll_lookup_free q2 hq2 (ppaOps own pk es).1 [] hpair rfl
  have hq_out : dlookup (dinsertAll [] (ppaOps own pk es).1) q =
      some ((post_parse_attr false q w).1) := by
    rw [hlk_out q hq, hlk q hq, hlq]
    rfl
  have heq : (post_parse_attr own pk (.dict es)).1 =
      ppaFinish pk (dinsertAll [] (ppaOps own pk es).1) := rfl
  rw [heq]
  unfold ppaFinish
  by_cases hlen0 : (dinsertAll [] (ppaOps own pk es).1).length = 0
  · exfalso
    rw [List.length_eq_zero.mp hlen0] at hq_out
    exact Option.noConfusion hq_out
  · rw [if_neg hlen0]
    rcases hsh : dlookup (dinsertAll [] (ppaOps own pk es).1) "#text" with _ | w0
    · simp only [hsh]
      exact ⟨dinsertAll [] (ppaOps own pk es).1, rfl, hq_out⟩
    · simp only [hsh]
      by_cases hlen1 : (dinsertAll [] (ppaOps own pk es).1).length = 1
      · exfalso
        rw [single_text_entry _ w0 hlen1 hsh] at hq_out
        simp only [dlookup] at hq_out
        rw [if_neg (fun he => hqt he.symm)] at hq_out
        exact Option.noConfusion hq_out
      · rw [if_neg hlen1]
        have hndout : ((dinsertAll [] (ppaOps own pk es).1).map Prod.fst).Nodup :=
          dinsertAll_keys_nodup _ [] (by simp)
        have hestext : ∃ wt, dlookup es "#text" = some wt := by
          have h0 : dlookup (dinsertAll [] (ppaOps own pk es).1) "#text" =
              (dlookup es "#text").map (fun v0 => (post_parse_attr false "#text" v0).1) := by
            rw [hlk_out "#text" (by decide)]
            exact hlk "#text" (by decide)
          rw [hsh] at h0
          cases hx : dlookup es "#text" with
          | none =>
            rw [hx] at h0
            simp at h0
          | some wt => exact ⟨wt, rfl⟩
        obtain ⟨wt, hwt⟩ := hestext
        have hespk : dlookup es pk = none := by
          have h3 := hrs2.1
          rw [hwt] at h3
          simp only [Option.isNone_some, Bool.false_or] at h3
          exact Option.isNone_iff_eq_none.mp h3
        have hqpk : q ≠ pk := by
          intro he
          rw [he, hespk] at hlq
          exact Option.noConfusion hlq
        refine ⟨dinsert (dremove (dinsertAll [] (ppaOps own pk es).1) "#text") pk w0,
          rfl, ?_⟩
        rw [dlookup_dinsert_ne _ _ _ _ (fun he => hqpk he.symm),
          dlookup_dremove_ne _ _ _ (fun he => hqt he.symm)]
        exact hq_out

theorem ppaList_mem (pk : String) :
    ∀ (xs : List Val) (v : Val), v ∈ xs →
      (post_parse_attr true pk v).1 ∈ ppaList pk xs
  | [], v, hv => absurd hv (List.not_mem_nil v)
  | x :: rest, v, hv => by
    simp only [ppaList]
    rcases List.mem_cons.mp hv with rfl | h2
    · exact List.mem_cons_self _ _
    · exact List.mem_cons_of_mem _ (ppaList_mem pk rest v h2)

theorem wfVList_mem (xs : List Val) (v : Val) (hwf : wfVList xs = true) (hv : v ∈ xs) :
    wfVal v = true := by
  induction xs with
  | nil => exact absurd hv (List.not_mem_nil v)
  | cons x rest ih =>
    simp only [wfVList, Bool.and_eq_true] at hwf
    rcases List.mem_cons.mp hv with rfl | h2
    · exact hwf.1
    · exact ih hwf.2 h2

theorem renameSafeL_mem (pk : String) (xs : List Val) (v : Val)
    (hrs : renameSafeL pk xs = true) (hv : v ∈ xs) : renameSafe pk v = true := by
  induction xs with
  | nil => exact absurd hv (List.not_mem_nil v)
  | cons x rest ih =>
    simp only [renameSafeL, Bool.and_eq_true] at hrs
    rcases List.mem_cons.mp hv with rfl | h2
    · exact hrs.1
    · exact ih hrs.2 h2

theorem ppa_count_eq (a : String) (own : Bool) (pk : String) (v : Val)
    (hwf : wfVal v = true) (hrs : renameSafe pk v = true)
    (hpk : pk.data.contains '@' = false)
    (hpkm : pk ≠ "__xmlns__" ∨ isScalar v = true) :
    markerCount a (post_parse_attr own pk v).1 = markerCount a v := by
  have h := ppa_val a v own pk hwf hrs hpk hpkm
  have hz : markerCountE a (post_parse_attr own pk v).2 = 0 :=
    markerCountE_scalar_values a _ (fun kv hkv => (h.2 kv hkv).2)
  have h1 := h.1
  omega

/-! The reshaping pass preserves the image of the namespace root: along a
spine of plain keys the entry structure, the sentinel and the empty
census below it survive. -/
theorem spine_ppa (a : String) : ∀ (ks : List String) (v : Val),
    NSImage a ks v → ∀ (own : Bool) (pk : String),
    wfVal v = true → renameSafe pk v = true → pk.data.contains '@' = false →
    pk ≠ "__xmlns__" →
    (∀ k2 ∈ ks, k2.data.contains '@' = false ∧ k2 ≠ "#text") →
    NSImage a ks (post_parse_attr own pk v).1 := by
  intro ks v h
  induction h with
  | root es hl hc =>
    intro own pk hwf hrs hpk hpkm hks
    obtain ⟨es2, hshape, hlq2⟩ := ppa_dict_shape own pk es hwf hrs hpk "__xmlns__"
      (by decide) (by decide) (.str a) hl
    rw [ppa_str_id] at hlq2
    have hcount := ppa_count_eq a own pk (.dict es) hwf hrs hpk (Or.inl hpkm)
    rw [hshape] at hcount
    have h1 : markerCount a (.dict es) = 1 := by
      simp [markerCount, hl, hc]
    have h2 : markerCountE a es2 = 0 := by
      have h3 : markerCount a (.dict es2) = 1 := by rw [hcount, h1]
      have h4 : markerCount a (.dict es2) = 1 + markerCountE a es2 := by
        simp [markerCount, hlq2]
      omega
    rw [hshape]
    exact NSImage.root es2 hlq2 h2
  | child k ks2 es v2 hlkk h2 ih =>
    intro own pk hwf hrs hpk hpkm hks
    have hw2 : wfEntries es = true ∧ (es.map Prod.fst).Nodup := by
      simpa [wfVal, Bool.and_eq_true] using hwf
    have hrs2 : ((dlookup es "#text").isNone || (dlookup es pk).isNone) = true ∧
        renameSafeE es = true := by
      simpa [renameSafe, Bool.and_eq_true] using hrs
    have hentry := wfEntries_dlookup es k v2 hw2.1 hlkk
    have hrsv2 := renameSafeE_dlookup es k v2 hrs2.2 hlkk
    have hkgood := hks k (List.mem_cons_self _ _)
    have hns2 : isScalar v2 = false := NSImage_not_scalar a ks2 v2 h2
    have hkx : k ≠ "__xmlns__" := by
      intro he
      have hstr := hentry.2.2 he
      rw [isScalar_of_isStr v2 hstr] at hns2
      exact Bool.false_ne_true hns2.symm
    obtain ⟨es2, hshape, hlq2⟩ := ppa_dict_shape own pk es hwf hrs hpk k
      hkgood.1 hkgood.2 v2 hlkk
    have himg := ih false k hentry.1 hrsv2 hkgood.1 hkx
      (fun k3 hk3 => hks k3 (List.mem_cons_of_mem _ hk3))
    rw [hshape]
    exact NSImage.child k ks2 es2 _ hlq2 himg
  | member ks2 xs v2 hv h2 ih =>
    intro own pk hwf hrs hpk hpkm hks
    have hwx : wfVList xs = true := by simpa [wfVal] using hwf
    have hrx : renameSafeL pk xs = true := by simpa [renameSafe] using hrs
    have himg := ih true pk (wfVList_mem xs v2 hwx hv) (renameSafeL_mem pk xs v2 hrx hv)
      hpk hpkm hks
    show NSImage a ks2 (.list (ppaList pk xs))
    exact NSImage.member ks2 _ _ (ppaList_mem pk xs v2 hv) himg

/-! ### The claims -/

/-- Claim C1, counterexample to the frozen statement: a wellformed document
in which namespace ns1 wraps exactly one root element with one descendant
in the same namespace, yet the mapping parse_xml builds carries no
__xmlns__ marker at all: the reshaping rename of the text entry overwrites
the subtree holding the marker. -/
theorem C1_marker_lost :
    ∃ doc : XTree, wfTree doc = true ∧ uniqueNSRoot "ns1" doc = true ∧
      markerCount "ns1" (parse_xml_dict [] [] doc) = 0 :=
  ⟨.mk "p" [] [.mk "p" [] [.mk "ns1 e" [] [.mk "ns1 f" [] [] none] none] none] (some "t"),
    by decide, by decide, by decide⟩

/-- Claim C1, amended: for a wellformed document in which the namespace
with alias a wraps exactly one root element (with at least one descendant
in the namespace, as uniqueNSRoot demands), and in which no element with
non empty text has a child sharing its normalized key, the mapping
parse_xml builds carries the marker entry for a exactly once, and that
single marked node is the image of the outermost, first encountered
element of the namespace: following that element's key spine from the top
of the mapping reaches a dict holding the sentinel among its own entries
with no sentinel anywhere below it. Holds for every force list and
whatever the shared default dict already contains. -/
theorem C1_marker_unique (a : String) (fl : List String) (s0 : List (String × Val))
    (doc : XTree) (ha : goodAlias a = true) (hwf : wfTree doc = true)
    (hts : textSafeTree doc = true) (huniq : uniqueNSRoot a doc = true) :
    markerCount a (parse_xml_dict fl s0 doc) = 1 ∧
    NSImage a (localKey doc.rawKey :: nsSpine a doc) (parse_xml_dict fl s0 doc) := by
  have hwfv := xmltodict_wf fl doc hwf hts
  have hwk : wfKey doc.rawKey = true := by
    cases doc with
    | mk k2 a2 c2 t2 => exact (wfTree_parts k2 a2 c2 t2 hwf).1
  constructor
  · have hone := xmltodict_marker_one a fl doc ha hwf huniq
    have hc := ppa_count_eq a false "" (xmltodict_parse fl doc) hwfv.1 hwfv.2 (by decide)
      (Or.inl (by decide))
    show markerCount a (post_parse_attr false "" (xmltodict_parse fl doc)).1 = 1
    rw [hc, hone]
  · have himgV : NSImage a (nsSpine a doc) (ppv fl [] doc).2 :=
      spine_conv a ha fl doc [] hwf huniq rfl
    obtain ⟨w1, hw1, hI1⟩ := push_data_self_NSImage a (nsSpine a doc) [doc.rawKey] none
      doc.rawKey (elemValue fl [doc.rawKey] doc) fl himgV
    rw [pp_key_eq_localKey [doc.rawKey] doc.rawKey (elemValue fl [doc.rawKey] doc) hwk]
      at hw1
    have hX : NSImage a (localKey doc.rawKey :: nsSpine a doc) (xmltodict_parse fl doc) :=
      NSImage.child _ _ _ w1 hw1 hI1
    have hks : ∀ k2 ∈ (localKey doc.rawKey :: nsSpine a doc),
        k2.data.contains '@' = false ∧ k2 ≠ "#text" := by
      intro k2 hk2
      rcases List.mem_cons.mp hk2 with rfl | h2
      · have hg := goodName_str_facts _ (localKey_good doc.rawKey hwk)
        exact ⟨hg.2.2.2, hg.2.1⟩
      · have hg := goodName_str_facts k2 (nsSpine_good a doc hwf k2 h2)
        exact ⟨hg.2.2.2, hg.2.1⟩
    show NSImage a (localKey doc.rawKey :: nsSpine a doc)
      (post_parse_attr false "" (xmltodict_parse fl doc)).1
    exact spine_ppa a (localKey doc.rawKey :: nsSpine a doc) (xmltodict_parse fl doc)
      hX false "" hwfv.1 hwfv.2 (by decide) (by decide) hks

/-- Claim C1, witness: the amended theorem at a concrete document, one
namespace root with one namespaced child, an attribute and text. -/
theorem C1_marker_unique_witness :
    markerCount "ns1" (parse_xml_dict [] []
      (.mk "ns1 r" [("x", "urn:uuid:abc")] [.mk "ns1 c" [] [] (some "42")]
        (some "txt"))) = 1 ∧
    NSImage "ns1"
      (localKey (XTree.mk "ns1 r" [("x", "urn:uuid:abc")]
        [.mk "ns1 c" [] [] (some "42")] (some "txt")).rawKey ::
        nsSpine "ns1" (XTree.mk "ns1 r" [("x", "urn:uuid:abc")]
          [.mk "ns1 c" [] [] (some "42")] (some "txt")))
      (parse_xml_dict [] []
        (.mk "ns1 r" [("x", "urn:uuid:abc")] [.mk "ns1 c" [] [] (some "42")]
          (some "txt"))) :=
  C1_marker_unique "ns1" [] [] _ (by decide) (by decide) (by decide) (by decide)

/-- Claim C2, counterexample to the frozen statement: on a string that
starts with the urn uuid prefix, the stored value is not the input with
only the leading prefix removed; Python replace removes the inner
occurrence as well. -/
theorem C2_uuid_not_prefix_only :
    pyStartsWith "urn:uuid:aurn:uuid:b" "urn:uuid:" = true ∧
    (post_parse_node [] "mykey" (.str "urn:uuid:aurn:uuid:b")).2 ≠ .str "aurn:uuid:b" ∧
    (post_parse_node [] "mykey" (.str "urn:uuid:aurn:uuid:b")).2 = .str "ab" :=
  ⟨by decide, by decide, by decide⟩

/-- Claim C2, amended: on a string value that starts with the urn uuid
prefix, when the text left after removal does not parse as a number, the
stored value is the input with every occurrence of the prefix removed. -/
theorem C2_uuid_strip (path : List String) (key s : String)
    (hpre : pyStartsWith s "urn:uuid:" = true)
    (hnum : parseDecimal (String.mk (removeOcc uuidPrefix s.data)) = none) :
    (post_parse_node path key (.str s)).2 =
      .str (String.mk (removeOcc uuidPrefix s.data)) := by
  rw [pp_str_value]
  have hpf : uuidPrefix.isPrefixOf s.data = true := hpre
  simp only [ppScalarPipe, strip_uuid, hpf, if_true, try_convert_number, hnum]

/-- Claim C2, witness: the amended theorem at a concrete string with two
occurrences of the prefix. -/
theorem C2_uuid_strip_witness :
    (post_parse_node [] "k" (.str "urn:uuid:abc-urn:uuid:def")).2 =
      .str (String.mk (removeOcc uuidPrefix "urn:uuid:abc-urn:uuid:def".data)) :=
  C2_uuid_strip [] "k" _ (by decide) (by decide)

/-- Claim C3: the numeric coercion turns text of the form N.0 into the
integer N, keeps a non integral decimal as the parsed floating value, and
returns text that does not parse unchanged; it is a total function. -/
theorem C3_number_coercion :
    (∀ n : Int, try_convert_number (.str (String.mk (renderInt n ++ ['.', '0']))) =
      .int n) ∧
    (∀ (s : String) (q : Rat), parseDecimal s = some q → q.den ≠ 1 →
      try_convert_number (.str s) = .float q) ∧
    (∀ s : String, parseDecimal s = none → try_convert_number (.str s) = .str s) := by
  refine ⟨?_, ?_, ?_⟩
  · intro n
    simp [try_convert_number, parseDecimal_intDotZero, Rat.den_intCast, Rat.num_intCast]
  · intro s q hq hd
    simp [try_convert_number, hq, hd]
  · intro s h
    simp [try_convert_number, h]

/-- Claim C3, witness: the coercion at the concrete texts 42.0, 3.1415 and
a non numeric string. -/
theorem C3_number_coercion_witness :
    try_convert_number (.str (String.mk (renderInt (42 : Int) ++ ['.', '0']))) =
      .int 42 ∧
    try_convert_number (.str "3.1415") = .float (mkRat 31415 10000) ∧
    try_convert_number (.str "abc") = .str "abc" :=
  ⟨C3_number_coercion.1 42,
   C3_number_coercion.2.1 "3.1415" (mkRat 31415 10000) (by decide) (by decide),
   C3_number_coercion.2.2 "abc" (by decide)⟩

/-- Claim C4: an element whose mapping holds only the attributes a and b
is reshaped to Elem at a and Elem at b entries in the parent, and the
residual entry under the element key is the empty string, not a mapping. -/
theorem C4_attr_reshape :
    post_parse_attr_call []
      (.dict [("Elem", .dict [("@a", .str "1"), ("@b", .str "2")])]) =
    (.dict [("Elem@a", .str "1"), ("Elem@b", .str "2"), ("Elem", .str "")], []) := by
  decide

/-- Claim C5: parse_xml raises ValueError exactly on the failed file
check, before the try block; any failure of the guarded body is caught,
logged with the path and the message, and the call returns None. -/
theorem C5_parse_xml_errors (path : String) (attempt : Except String Val) :
    ((parse_xml_model false path attempt).1 =
      .error (.valueError (path ++ " is not a file")) ∧
     (parse_xml_model false path attempt).2 = []) ∧
    (∀ v, attempt = .ok v → parse_xml_model true path attempt = (.ok (some v), [])) ∧
    (∀ e, attempt = .error e → parse_xml_model true path attempt =
      (.ok none, ["Error parsing XML " ++ path ++ " : " ++ e])) ∧
    (∀ exc, (parse_xml_model true path attempt).1 ≠ .error exc) := by
  refine ⟨⟨rfl, rfl⟩, ?_, ?_, ?_⟩
  · intro v hv
    subst hv
    rfl
  · intro e he
    subst he
    rfl
  · intro exc hexc
    cases attempt <;> simp [parse_xml_model] at hexc

/-- Claim C5, witness: the model at a concrete path whose body fails. -/
theorem C5_parse_xml_errors_witness :
    (parse_xml_model false "doc.xml" (.error "boom")).1 =
      .error (.valueError ("doc.xml" ++ " is not a file")) ∧
    parse_xml_model true "doc.xml" (.error "boom") =
      (.ok none, ["Error parsing XML " ++ "doc.xml" ++ " : " ++ "boom"]) :=
  ⟨(C5_parse_xml_errors "doc.xml" (.error "boom")).1.1,
   (C5_parse_xml_errors "doc.xml" (.error "boom")).2.2.1 "boom" rfl⟩

/-- Claim C6: validate_xml resolves the schema by exact publicId match in
the catalog: zero matches fail with XSD schema not found, several matches
fail with Multiple XSD schema found, and only a single match validates,
failing when the document does not conform. -/
theorem C6_catalog_resolution (path cpath : String)
    (catalog : List (String × String)) (xsdId : String) (conform : String → Bool)
    (env : String → Option String) :
    ((catalog.filter (fun e => e.1 == xsdId)).length = 0 →
      (validate_xml_model true path cpath catalog xsdId conform env).1 =
        .error (.lookupError "XSD schema not found")) ∧
    (1 < (catalog.filter (fun e => e.1 == xsdId)).length →
      (validate_xml_model true path cpath catalog xsdId conform env).1 =
        .error (.lookupError "Multiple XSD schema found")) ∧
    (∀ k uri, catalog.filter (fun e => e.1 == xsdId) = [(k, uri)] →
      (validate_xml_model true path cpath catalog xsdId conform env).1 =
        if conform uri = true then .ok () else .error (.documentInvalid path)) := by
  refine ⟨?_, ?_, ?_⟩
  · intro h0
    simp only [validate_xml_model]
    rw [if_neg (by simp), if_pos h0]
  · intro h1
    have h0 : ¬ (catalog.filter (fun e => e.1 == xsdId)).length = 0 := by omega
    simp only [validate_xml_model]
    rw [if_neg (by simp), if_neg h0, if_pos h1]
  · intro k uri hm
    have h0 : ¬ (catalog.filter (fun e => e.1 == xsdId)).length = 0 := by
      rw [hm]
      simp
    have h1 : ¬ 1 < (catalog.filter (fun e => e.1 == xsdId)).length := by
      rw [hm]
      simp
    simp only [validate_xml_model]
    rw [if_neg (by simp), if_neg h0, if_neg h1, hm]
    rfl

/-- Claim C6, witness: the model at a concrete catalog with an absent
identifier, a doubled identifier and a unique one. -/
theorem C6_catalog_resolution_witness :
    (validate_xml_model true "f.xml" "cat.xml" [("a", "u")] "b" (fun _ => true)
      (fun _ => none)).1 = .error (.lookupError "XSD schema not found") ∧
    (validate_xml_model true "f.xml" "cat.xml" [("a", "u1"), ("a", "u2")] "a"
      (fun _ => true) (fun _ => none)).1 =
        .error (.lookupError "Multiple XSD schema found") ∧
    (validate_xml_model true "f.xml" "cat.xml" [("a", "u")] "a" (fun _ => true)
      (fun _ => none)).1 =
        (if (fun _ : String => true) "u" = true then .ok ()
          else .error (.documentInvalid "f.xml")) :=
  ⟨(C6_catalog_resolution "f.xml" "cat.xml" [("a", "u")] "b" (fun _ => true)
      (fun _ => none)).1 (by decide),
   (C6_catalog_resolution "f.xml" "cat.xml" [("a", "u1"), ("a", "u2")] "a"
      (fun _ => true) (fun _ => none)).2.1 (by decide),
   (C6_catalog_resolution "f.xml" "cat.xml" [("a", "u")] "a" (fun _ => true)
      (fun _ => none)).2.2 "a" "u" (by decide)⟩

/-- Claim C7: the catalog environment variable is set only for the scope
of the validation body and the whole prior environment is restored on
every exit path of validate_xml; inside the scope only that one key is
changed. -/
theorem C7_env_scoped (isFile : Bool) (path cpath : String)
    (catalog : List (String × String)) (xsdId : String) (conform : String → Bool)
    (env : String → Option String) (k v : String)
    (body : (String → Option String) → Except PyExc Unit) :
    (validate_xml_model isFile path cpath catalog xsdId conform env).2 = env ∧
    (modified_dict_run env k v body).1 = body (setEnv env k (some v)) ∧
    setEnv env k (some v) k = some v ∧
    (∀ q, q ≠ k → setEnv env k (some v) q = env q) := by
  refine ⟨?_, rfl, by simp [setEnv], fun q hq => by simp [setEnv, hq]⟩
  simp only [validate_xml_model]
  by_cases hf : isFile = false
  · rw [if_pos hf]
  · rw [if_neg hf]
    by_cases h0 : (catalog.filter (fun e => e.1 == xsdId)).length = 0
    · rw [if_pos h0]
    · rw [if_neg h0]
      by_cases h1 : 1 < (catalog.filter (fun e => e.1 == xsdId)).length
      · rw [if_pos h1]
      · rw [if_neg h1]
        rcases hm : catalog.filter (fun e => e.1 == xsdId) with _ | ⟨⟨k2, uri⟩, rest⟩
        · rw [hm]
        · rw [hm]
          exact setEnv_restore env "XML_CATALOG_FILES" (some cpath)

/-- Claim C7, witness: a concrete validation whose document does not
conform still restores the empty environment. -/
theorem C7_env_scoped_witness :
    (validate_xml_model true "f.xml" "cat.xml" [("a", "u")] "a" (fun _ => false)
      (fun _ => none)).2 = (fun _ => none) ∧
    setEnv (fun _ => (none : Option String)) "XML_CATALOG_FILES" (some "cat.xml")
      "XML_CATALOG_FILES" = some "cat.xml" :=
  ⟨(C7_env_scoped true "f.xml" "cat.xml" [("a", "u")] "a" (fun _ => false)
      (fun _ => none) "XML_CATALOG_FILES" "cat.xml" (fun _ => .ok ())).1,
   (C7_env_scoped true "f.xml" "cat.xml" [("a", "u")] "a" (fun _ => false)
      (fun _ => none) "XML_CATALOG_FILES" "cat.xml" (fun _ => .ok ())).2.2.1⟩

/-- Claim C8, counterexample to the frozen statement: the substitution
alters C14N bytes whose pattern occurrence lies inside text content, here
the serialization of an element whose text is the pattern itself. -/
theorem C8_sub_alters_text :
    serNode (.elem "a" [.text " xmlns=\"\""]) = "<a> xmlns=\"\"</a>".data ∧
    canonicalize_xml_sub "<a> xmlns=\"\"</a>".data = "<a></a>".data ∧
    canonicalize_xml_sub "<a> xmlns=\"\"</a>".data ≠ "<a> xmlns=\"\"</a>".data :=
  ⟨by decide, by decide, by decide⟩

/-- Claim C8, amended: the post processing removes every occurrence of the
pattern wherever it stands in the bytes, text content included; bytes with
no occurrence pass through unchanged. -/
theorem C8_sub_identity (s : List Char) (h : hasOcc xmlnsPat s = false) :
    canonicalize_xml_sub s = s :=
  removeOcc_no_occ xmlnsPat s h

/-- Claim C8, witness: the identity at concrete pattern free bytes. -/
theorem C8_sub_identity_witness :
    canonicalize_xml_sub "<a><b>x</b></a>".data = "<a><b>x</b></a>".data :=
  C8_sub_identity _ (by decide)

/-- Claim C9, counterexample to the frozen statement: a document whose
canonical bytes, read back faithfully as a document, canonicalize to
different bytes: removing one pattern occurrence creates a new seam that a
second pass removes. -/
theorem C9_not_idempotent :
    serNode (.elem "a" [.text " xmlns=\"\""]) =
      canonBytes (.elem "a" [.text " xmlns= xmlns=\"\"\"\""]) ∧
    canonBytes (.elem "a" [.text " xmlns=\"\""]) ≠
      canonBytes (.elem "a" [.text " xmlns= xmlns=\"\"\"\""]) :=
  ⟨by decide, by decide⟩

/-- Claim C9, amended: on documents whose serialization holds no
occurrence of the pattern the pass changes nothing, and canonicalization
is stable: any document serializing to those canonical bytes
canonicalizes to the same bytes. -/
theorem C9_canon_stable (d : XNode) (hd : hasOcc xmlnsPat (serNode d) = false) :
    canonBytes d = serNode d ∧
    ∀ e : XNode, serNode e = canonBytes d → canonBytes e = canonBytes d := by
  have h1 : canonBytes d = serNode d := removeOcc_no_occ xmlnsPat _ hd
  refine ⟨h1, ?_⟩
  intro e he
  show canonicalize_xml_sub (serNode e) = canonBytes d
  rw [he, h1]
  exact removeOcc_no_occ xmlnsPat _ hd

/-- Claim C9, witness: stability at a concrete pattern free document. -/
theorem C9_canon_stable_witness :
    canonBytes (XNode.elem "a" [.text "hi"]) = serNode (XNode.elem "a" [.text "hi"]) ∧
    canonBytes (XNode.elem "a" [.text "hi"]) = canonBytes (XNode.elem "a" [.text "hi"]) :=
  ⟨(C9_canon_stable (XNode.elem "a" [.text "hi"]) (by decide)).1,
   (C9_canon_stable (XNode.elem "a" [.text "hi"]) (by decide)).2
     (XNode.elem "a" [.text "hi"])
     ((C9_canon_stable (XNode.elem "a" [.text "hi"]) (by decide)).1).symm⟩

/-- Claim C10: the default parent dict of post_parse_attr is one shared
mapping: a top level attribute entry is written into it, not into the
returned value, and a later call at default arguments observes the entries
earlier calls deposited there. -/
theorem C10_shared_default :
    (post_parse_attr_call [] (.dict [("@a", .str "1")])).1 = .str "" ∧
    (post_parse_attr_call [] (.dict [("@a", .str "1")])).2 = [("@a", .str "1")] ∧
    (post_parse_attr_call [("@a", .str "1")] (.dict [("@b", .str "2")])).2 =
      [("@a", .str "1"), ("@b", .str "2")] := by
  decide

end Clairmeta
